import Mathlib

/-!
Verification development for the spreadsheet-ingestion and counterparty-reconciliation
core of the P-L_Allada repository.

JavaScript strings are modelled as lists of Unicode scalar values (`Str := List Char`);
for the Latin/Cyrillic basic-multilingual-plane text this code manipulates, one JS
UTF-16 code unit corresponds to one `Char`.  JS `toUpperCase`/`toLowerCase` are
modelled character-by-character on the Latin and Cyrillic ranges (identity elsewhere),
which covers every alphabet appearing in the keyword, marker and stop-phrase tables of
the source.  JS `Map` objects are modelled as insertion-ordered association lists;
numeric cell values as rationals.  Host functionality with no local definition in the
repository (the `XLSX.SSF` serial-date decoder and the `new Date(...)` constructor
inside `parseDate`, and the id-salt `Date.now()` inside `nextId`) is abstracted as
explicit function parameters; every theorem quantifies over those parameters.
-/

/-- A JavaScript string, as its sequence of UTF-16 code units (BMP only). -/
abbrev Str := List Char

/-- The whitespace class of JS `trim` / `\s`, restricted to the code points that can
occur in this pipeline's data (ASCII whitespace, NBSP, BOM). -/
def wsChar (c : Char) : Bool :=
  c == ' ' || c == '\t' || c == '\n' || c == '\r' || c == '\x0b' || c == '\x0c' ||
  c == '\u00A0' || c == '\uFEFF'

/-- Drop the longest suffix whose characters satisfy `p`. -/
def dropTrail (p : Char → Bool) (l : Str) : Str :=
  (l.reverse.dropWhile p).reverse

/-- JS `String.prototype.trim`. -/
def trimL (l : Str) : Str :=
  dropTrail wsChar (l.dropWhile wsChar)

/-- JS `toUpperCase`, character-wise on Latin a-z and Cyrillic а-я/ё. -/
def charUpper (c : Char) : Char :=
  let n := c.toNat
  if 97 ≤ n ∧ n ≤ 122 then Char.ofNat (n - 32)
  else if 1072 ≤ n ∧ n ≤ 1103 then Char.ofNat (n - 32)
  else if n = 1105 then 'Ё'
  else c

/-- JS `toLowerCase`, character-wise on Latin A-Z and Cyrillic А-Я/Ё. -/
def charLower (c : Char) : Char :=
  let n := c.toNat
  if 65 ≤ n ∧ n ≤ 90 then Char.ofNat (n + 32)
  else if 1040 ≤ n ∧ n ≤ 1071 then Char.ofNat (n + 32)
  else if n = 1025 then 'ё'
  else c

def upperL (l : Str) : Str := l.map charUpper

def lowerL (l : Str) : Str := l.map charLower

/-- JS `String.prototype.includes`: does `p` occur as a contiguous substring of `l`? -/
def containsSub (l p : Str) : Bool :=
  match l with
  | [] => p.isEmpty
  | c :: t => p.isPrefixOf (c :: t) || containsSub t p

/-- JS `String.prototype.indexOf` (position of the first occurrence, `none` for -1). -/
def jsIndexOf (l p : Str) : Option Nat :=
  match l with
  | [] => if p.isEmpty then some 0 else none
  | c :: t => if p.isPrefixOf (c :: t) then some 0 else (jsIndexOf t p).map (· + 1)

/-- Split at `'\n'` (keeping empty parts), accumulator reversed. -/
def splitNLAux : Str → Str → List Str
  | [], acc => [acc.reverse]
  | c :: rest, acc =>
    if c = '\n' then acc.reverse :: splitNLAux rest [] else splitNLAux rest (c :: acc)

/-- Remove one trailing `'\r'` when present. -/
def dropOneCR (l : Str) : Str :=
  if l.getLast? = some '\r' then l.dropLast else l

def mapButLast (f : Str → Str) : List Str → List Str
  | [] => []
  | [x] => [x]
  | x :: y :: xs => f x :: mapButLast f (y :: xs)

/-- JS `split(/\r?\n/)`: each `'\n'` ends a part, swallowing one `'\r'` directly
before it — i.e. split at `'\n'`, then drop one trailing `'\r'` from every part
that was in fact followed by a `'\n'` (all but the last). -/
def splitRN (s : Str) : List Str := mapButLast dropOneCR (splitNLAux s [])

/-- JS `split(/\s+/).filter(Boolean)`: the maximal whitespace-free chunks. -/
def jsWordsAux : Str → Str → List Str
  | [], acc => if acc = [] then [] else [acc.reverse]
  | c :: rest, acc =>
    if wsChar c then
      if acc = [] then jsWordsAux rest [] else acc.reverse :: jsWordsAux rest []
    else jsWordsAux rest (c :: acc)

def jsWords (s : Str) : List Str := jsWordsAux s []

/-- JS `split(' ').filter(Boolean)`: split at single spaces, dropping empty parts. -/
def splitSpAux : Str → Str → List Str
  | [], acc => if acc = [] then [] else [acc.reverse]
  | c :: rest, acc =>
    if c == ' ' then
      if acc = [] then splitSpAux rest [] else acc.reverse :: splitSpAux rest []
    else splitSpAux rest (c :: acc)

def splitSp (s : Str) : List Str := splitSpAux s []

/-- JS `Array.prototype.join` with a one-character separator. -/
def joinWith (sep : Char) : List Str → Str
  | [] => []
  | w :: ws => if ws.isEmpty then w else w ++ sep :: joinWith sep ws

def joinSpace (ws : List Str) : Str := joinWith ' ' ws

/-- JS `a || b` on strings (empty string is falsy). -/
def strOr (a b : Str) : Str := if a = [] then b else a

-- ========== Counterparty normalisation (src/src/context/AppContext.tsx) ==========

/-- The `engToRus` homograph substitution table of `cleanCounterparty`. -/
def engToRus : List (Char × Char) :=
  [('A', 'А'), ('B', 'В'), ('C', 'С'), ('E', 'Е'), ('H', 'Н'), ('K', 'К'),
   ('M', 'М'), ('O', 'О'), ('P', 'Р'), ('T', 'Т'), ('X', 'Х'), ('V', 'В'),
   ('a', 'а'), ('c', 'с'), ('e', 'е'), ('o', 'о'), ('p', 'р'), ('x', 'х'), ('v', 'в')]

def charFold (c : Char) : Char :=
  ((engToRus.find? (fun p => p.1 == c)).map (·.2)).getD c

def engToRusFold (s : Str) : Str := s.map charFold

def orgMarkers : List Str :=
  (["ООО", "ОАО", "ЗАО", "ПАО", "АО", "ИП", "НКО", "НАО", "ГБУЗ", "ГУП", "МУП",
    "ФГУП", "БАНК", "LLC", "LTD", "INC"]).map String.data

def operationMarkers : List Str :=
  (["СПИСАНИЕ", "ПОСТУПЛЕНИЕ", "ОПЛАТА", "ПЕРЕВОД", "ВОЗВРАТ"]).map String.data

/-- The trimmed non-blank lines of a (possibly multi-line) counterparty string. -/
def cleanLines (s : Str) : List Str :=
  ((splitRN s).map trimL).filter (fun l => l ≠ [])

/-- Does the line contain an organisational-form marker (uppercased)? -/
def orgLikeLine (line : Str) : Bool :=
  orgMarkers.any (fun m => containsSub (upperL line) m)

/-- Does the line not start with an operation word (uppercased)? -/
def nonOperationLine (line : Str) : Bool :=
  ! operationMarkers.any (fun m => m.isPrefixOf (upperL line))

/-- `orgLike || nonOperation || lines[0]` over a non-empty `lines` list. -/
def selectFromLines (lines : List Str) (s : Str) : Str :=
  match lines with
  | [] => s
  | _ :: _ =>
    match lines.find? orgLikeLine with
    | some l => l
    | none =>
      match lines.find? nonOperationLine with
      | some l => l
      | none => lines.headD s

/-- Line selection inside `cleanCounterparty`: prefer an organisation-like line, then a
line not starting with an operation word, then the first line. -/
def selectLine (s : Str) : Str :=
  selectFromLines (cleanLines s) s

def stopPhrases : List Str :=
  (["БЕЗ ДОГОВОРА", "ОСНОВНОЙ ДОГОВОР", "СОГЛАШЕНИЕ", "СПИСАНИЕ",
    "ПОСТУПЛЕНИЕ", "ОПЛАТА", "ПЕРЕВОД", "ВОЗВРАТ",
    "ДОГОВОР №", "ДОГОВОР N", "ДОГОВОР ", "СЧЕТ №", "СЧЁТ №",
    "АКТ ", "УПД ", "НАКЛАДНАЯ", "ПОСТУПЛЕНИЕ (АКТ",
    " ОТ "]).map String.data

/-- One step of the `cutPos` loop of `cleanCounterparty`. -/
def cutStep (u : Str) (cutPos : Nat) (ph : Str) : Nat :=
  match jsIndexOf u ph with
  | some idx => if 0 < idx ∧ idx < cutPos then idx else cutPos
  | none => cutPos

/-- The `cutPos` loop of `cleanCounterparty`: the least strictly positive first-occurrence
position of a stop phrase in `u`, or `u.length` when there is none. -/
def cutPosFold (u : Str) : Nat :=
  stopPhrases.foldl (cutStep u) u.length

/-- Stop-phrase truncation stage of `cleanCounterparty`. -/
def cutAtStops (s : Str) : Str :=
  let u := upperL s
  let cutPos := cutPosFold u
  if cutPos < u.length then trimL (s.take cutPos) else s

def trailJunk (c : Char) : Bool :=
  wsChar c || c == ',' || c == ';' || c == '.' || c == '-'

/-- JS `s.replace(/[\s,;.-]+$/, '').trim()`. -/
def stripTrailingJunk (s : Str) : Str := trimL (dropTrail trailJunk s)

/-- Does the string end with a character of the `[\s,;.-]` class? -/
def endsWithJunk (l : Str) : Bool :=
  match l.getLast? with
  | some c => trailJunk c
  | none => false

/-- Does the string end with a whitespace character? -/
def endsWithWs (l : Str) : Bool :=
  match l.getLast? with
  | some c => wsChar c
  | none => false

def orgForms : List Str :=
  (["КОЛЛЕГИЯ АДВОКАТОВ", "АДВОКАТСКОЕ БЮРО", "АДВОКАТСКАЯ КОНТОРА",
    "УПРАВЛЯЮЩАЯ КОМПАНИЯ", "СТРАХОВАЯ КОМПАНИЯ",
    "ООО", "ОАО", "ЗАО", "ПАО", "АО", "НКО", "НАО",
    "БАНК", "ИП", "ГБУЗ", "ГБУ", "МУП", "ГУП", "ФГУП", "КФХ", "ФБУЗ"]).map String.data

/-- Final stage of `cleanCounterparty`: keep legal-entity names whole, cap person
names at three whitespace-separated words. -/
def finalizeName (s : Str) : Str :=
  let upperCleaned := upperL s
  if orgForms.any (fun f => containsSub upperCleaned f) then s
  else
    let words := jsWords s
    if words.length ≤ 3 then joinSpace words else joinSpace (words.take 3)

/-- `cleanCounterparty` (src/src/context/AppContext.tsx, lines 6-81). -/
def cleanCounterparty (raw : Str) : Str :=
  let s := trimL raw
  if s = [] then []
  else
    let s1 := engToRusFold s
    let s2 := selectLine s1
    let s3 := cutAtStops s2
    let s4 := stripTrailingJunk s3
    if s4 = [] then [] else finalizeName s4

-- ========== Counterparty matching keys (src/src/context/AppContext.tsx, 84-135) ==========

def quoteChar (c : Char) : Bool := c == '"' || c == '«' || c == '»' || c == '\''

def punctToSpace (c : Char) : Bool :=
  c == '.' || c == ',' || c == ';' || c == ':' || c == '(' || c == ')'

/-- `normalizeCounterpartyForMatch`: lowercase, delete quotes, turn punctuation into
spaces, collapse whitespace runs to single spaces and trim (the last two steps are the
whitespace-chunk join, which is extensionally the JS `replace(/\s+/g,' ').trim()`). -/
def normalizeCounterpartyForMatch (raw : Str) : Str :=
  let lowered := lowerL raw
  let noQuotes := lowered.filter (fun c => ! quoteChar c)
  let punctSpaced := noQuotes.map (fun c => if punctToSpace c then ' ' else c)
  joinSpace (jsWords punctSpaced)

def ORG_PREFIXES : List Str :=
  (["ооо", "оао", "зао", "пао", "ао", "ип", "нко", "нао",
    "фбуз", "гбуз", "фгуп", "гуп", "муп", "кфх", "банк"]).map String.data

/-- `stripOrgPrefix` of the source: drop leading organisational-form tokens. -/
def stripOrgPrefixes (normalized : Str) : Str :=
  trimL (joinSpace ((splitSp normalized).dropWhile (fun p => ORG_PREFIXES.contains p)))

/-- `stripOrgTokens`: drop every organisational-form token. -/
def stripOrgTokens (normalized : Str) : Str :=
  trimL (joinSpace ((splitSp normalized).filter (fun t => ! ORG_PREFIXES.contains t)))

def stopTokens : List Str :=
  ORG_PREFIXES ++ (["и", "в", "по", "на", "для", "от", "с", "к"]).map String.data

/-- One character of the `/^[a-zа-яё-]+$/i` token test. -/
def sigTokenChar (c : Char) : Bool :=
  let n := c.toNat
  decide (97 ≤ n ∧ n ≤ 122) || decide (65 ≤ n ∧ n ≤ 90) ||
  decide (1072 ≤ n ∧ n ≤ 1103) || decide (1040 ≤ n ∧ n ≤ 1071) ||
  c == 'ё' || c == 'Ё' || c == '-'

def hasDigit (t : Str) : Bool := t.any (fun c => c.isDigit)

/-- UTF-16 lexicographic comparison, the default JS `Array.prototype.sort` order. -/
def strLt : Str → Str → Bool
  | [], [] => false
  | [], _ :: _ => true
  | _ :: _, [] => false
  | a :: as, b :: bs =>
    if a.toNat < b.toNat then true else if b.toNat < a.toNat then false else strLt as bs

def insertSorted (x : Str) : List Str → List Str
  | [] => [x]
  | y :: ys => if strLt x y then x :: y :: ys else y :: insertSorted x ys

/-- Stable sort in the default JS string order. -/
def sortStrs (l : List Str) : List Str := l.foldr insertSorted []

/-- `buildTokenSignature`: the sorted, filtered token multiset of a normalised name. -/
def buildTokenSignature (normalized : Str) : Str :=
  if normalized = [] then []
  else
    let tokens :=
      (((((splitSp normalized).map trimL).filter (fun t => t ≠ [])).filter
          (fun t => ! stopTokens.contains t)).filter
            (fun t => 2 ≤ t.length)).filter
              (fun t => ! hasDigit t) |>.filter (fun t => t.all sigTokenChar)
    joinWith '|' (sortStrs tokens)

-- ========== Data model (src/src/types/index.ts) ==========

/-- `'in' | 'out'` of the source. -/
inductive Direction
  | inflow
  | outflow
deriving DecidableEq, Repr

inductive SheetType
  | cash_journal
  | bank_journal
  | reference
  | unknown
deriving DecidableEq, Repr

structure ArticleDDS where
  name : Str
  group : Str
  activityType : Str
  comment : Str
deriving DecidableEq, Repr

structure CounterpartyRef where
  name : Str
deriving DecidableEq, Repr

/-- The canonical transaction record.  `date` is the JS `Date` as epoch milliseconds. -/
structure Transaction where
  id : Str
  date : Int
  source : Str
  sheet : Str
  sheetType : SheetType
  wallet : Str
  amount : ℚ
  direction : Direction
  note : Str
  branch : Str
  counterparty : Str
  article : Str
  accrualMonth : Str
  document : Str
deriving DecidableEq, Repr

inductive SourceStatus
  | loading
  | ready
  | error
deriving DecidableEq, Repr

inductive SourceType
  | file
  | google_sheets
deriving DecidableEq, Repr

structure ParsedSheet where
  name : Str
  type : SheetType
  rowCount : Nat
  sourceId : Str
  sourceName : Str
  selected : Bool
deriving DecidableEq, Repr

structure DataSource where
  id : Str
  name : Str
  type : SourceType
  url : Option Str
  status : SourceStatus
  error : Option Str
  sheets : List ParsedSheet
  transactions : List Transaction
  articles : List ArticleDDS
  counterparties : List CounterpartyRef
deriving DecidableEq, Repr

-- ========== Counterparty dictionary and resolver (AppContext.tsx, 246-338) ==========

/-- A JS `Map<string,string>` as an insertion-ordered association list. -/
def alookup (m : List (Str × Str)) (k : Str) : Option Str :=
  match m with
  | [] => none
  | (k', v) :: rest => if k' = k then some v else alookup rest k

def insertIfAbsent (m : List (Str × Str)) (k v : Str) : List (Str × Str) :=
  if (alookup m k).isSome then m else m ++ [(k, v)]

structure CpDict where
  exactMap : List (Str × Str)
  tokenMap : List (Str × Str)
  hasReferences : Bool
deriving DecidableEq, Repr

/-- The per-entry body of `buildCounterpartyDictionary`'s `forEach`. -/
def addCounterpartyEntry (d : CpDict) (displayName : Str) : CpDict :=
  let cleaned := cleanCounterparty displayName
  let normalized := normalizeCounterpartyForMatch cleaned
  let stripped := stripOrgPrefixes normalized
  let compactOrgAgnostic := stripOrgTokens normalized
  let signature := buildTokenSignature (strOr compactOrgAgnostic (strOr stripped normalized))
  let e1 := if normalized ≠ [] then insertIfAbsent d.exactMap normalized displayName else d.exactMap
  let e2 := if stripped ≠ [] then insertIfAbsent e1 stripped displayName else e1
  let e3 := if compactOrgAgnostic ≠ [] then insertIfAbsent e2 compactOrgAgnostic displayName else e2
  let tm := if signature ≠ [] then insertIfAbsent d.tokenMap signature displayName else d.tokenMap
  { exactMap := e3, tokenMap := tm, hasReferences := true }

/-- The trimmed, non-empty counterparty display names of all `ready` sources, in
source-loading order (the traversal order of `buildCounterpartyDictionary`). -/
def readyDisplayNames (sources : List DataSource) : List Str :=
  ((sources.filter (fun s => s.status == SourceStatus.ready)).flatMap
    (fun s => s.counterparties.map (fun cp => trimL cp.name))).filter (fun d => d ≠ [])

def buildCounterpartyDictionary (sources : List DataSource) : CpDict :=
  (readyDisplayNames sources).foldl addCounterpartyEntry ⟨[], [], false⟩

/-- `resolveCounterpartyName` (AppContext.tsx, 291-322).  `Map.get` misses and empty
strings are both falsy in the JS `||` chains, so a miss is modelled as `[]`. -/
def resolveCounterpartyName (rawCounterparty : Str) (dictionary : CpDict) : Str :=
  let raw := trimL rawCounterparty
  if raw = [] then []
  else
    let cleaned := cleanCounterparty raw
    let normalizedTx := normalizeCounterpartyForMatch cleaned
    let strippedTx := stripOrgPrefixes normalizedTx
    let compactOrgAgnosticTx := stripOrgTokens normalizedTx
    let found := strOr ((alookup dictionary.exactMap normalizedTx).getD [])
      (strOr ((alookup dictionary.exactMap strippedTx).getD [])
        ((alookup dictionary.exactMap compactOrgAgnosticTx).getD []))
    if found ≠ [] then found
    else
      let signature := buildTokenSignature (strOr compactOrgAgnosticTx (strOr strippedTx normalizedTx))
      if signature ≠ [] ∧ (alookup dictionary.tokenMap signature).isSome then
        strOr ((alookup dictionary.tokenMap signature).getD []) cleaned
      else if dictionary.hasReferences = false then cleaned
      else "нет в справочнике".data

def getSelectedSheetNames (sources : List DataSource) : List Str :=
  (sources.filter (fun s => s.status == SourceStatus.ready)).flatMap
    (fun s => (s.sheets.filter (fun sh => sh.selected)).map (fun sh => sh.name))

/-- `getAllTransactions` (AppContext.tsx, 324-338): the counterparty-resolution pass. -/
def getAllTransactions (sources : List DataSource) : List Transaction :=
  let selectedSheets := getSelectedSheetNames sources
  let dictionary := buildCounterpartyDictionary sources
  (sources.filter (fun s => s.status == SourceStatus.ready)).flatMap
    (fun s => (s.transactions.filter (fun t => selectedSheets.contains t.sheet)).map
      (fun t => { t with counterparty := resolveCounterpartyName t.counterparty dictionary }))

-- ========== Cell values and scalar parsing (src/unnamed/part_003) ==========

/-- A spreadsheet cell as decoded by `sheet_to_json`: text or a (non-NaN) number.
A missing cell / `null` / `undefined` is `Option.none` at use sites. -/
inductive CellValue
  | str (s : Str)
  | num (q : ℚ)
deriving DecidableEq, Repr

abbrev Grid := List (List CellValue)

/-- Decimal rendering used by JS `String(number)`; exact for integers, which is the
only numeric shape the pipeline's text columns meet (floats are out of model scope). -/
def numToStr (q : ℚ) : Str :=
  if q.den = 1 then (toString q.num).data
  else (toString q.num).data ++ '/' :: (toString q.den).data

/-- JS `String(v || '')`: falsy cells (missing, empty text, zero) become `''`. -/
def cellToStr (v : Option CellValue) : Str :=
  match v with
  | none => []
  | some (.str s) => s
  | some (.num q) => if q = 0 then [] else numToStr q

def digitsToNat (l : Str) : Nat := l.foldl (fun n c => 10 * n + (c.toNat - 48)) 0

/-- JS `parseFloat` on strings over the alphabet `[0-9.+-]` (the alphabet left by
`parseAmount`'s cleaning): optional sign, then the longest `digits[.digits]` prefix;
NaN (`none`) when no digit is read. -/
def jsParseFloatD (cleaned : Str) : Option ℚ :=
  let signRest : ℚ × Str :=
    match cleaned with
    | '-' :: r => (-1, r)
    | '+' :: r => (1, r)
    | r => (1, r)
  let sign := signRest.1
  let rest := signRest.2
  let intPart := rest.takeWhile Char.isDigit
  let rest2 := rest.dropWhile Char.isDigit
  let fracPart :=
    match rest2 with
    | '.' :: r2 => r2.takeWhile Char.isDigit
    | _ => []
  if intPart = [] ∧ fracPart = [] then none
  else some (sign * ((digitsToNat intPart : ℚ) + (digitsToNat fracPart : ℚ) / 10 ^ fracPart.length))

/-- `parseAmount` (part_003, 260-271): strip whitespace, commas to dots, keep only
`[0-9.-]`, parse, absolute value; anything unparseable (or falsy) is 0. -/
def parseAmount (value : Option CellValue) : ℚ :=
  match value with
  | none => 0
  | some (.num q) => if q = 0 then 0 else |q|
  | some (.str s) =>
    if s = [] then 0
    else
      let cleaned := ((s.filter (fun c => ! wsChar c)).map
        (fun c => if c == ',' then '.' else c)).filter
          (fun c => c.isDigit || c == '.' || c == '-')
      match jsParseFloatD cleaned with
      | none => 0
      | some q => |q|

-- ========== Direction inference (part_003, 460-477) ==========

/-- The dictionary probe of `getDirection`: first article whose name matches the
transaction's article case/trim-insensitively. -/
def findArticleMatch (article : Str) (articlesRef : List ArticleDDS) : Option ArticleDDS :=
  articlesRef.find? (fun a => trimL (lowerL a.name) == trimL (lowerL article))

/-- The keyword fallback of `getDirection` over the article text itself. -/
def directionByKeywords (article : Str) : Direction :=
  let lower := lowerL article
  if containsSub lower "поступлени".data || containsSub lower "доход".data ||
     containsSub lower "вклад".data || containsSub lower "получени".data
  then .inflow else .outflow

def getDirection (article : Str) (articlesRef : List ArticleDDS) : Direction :=
  if article = [] then .outflow
  else
    match findArticleMatch article articlesRef with
    | some found =>
      let group := lowerL found.group
      if containsSub group "поступление".data then .inflow
      else if containsSub group "выбытие".data then .outflow
      else directionByKeywords article
    | none => directionByKeywords article

-- ========== Header normalisation and column lookup (part_003, 275-289) ==========

/-- `normalizeHeader`: lowercase, trim, newlines to spaces, collapse whitespace (the
collapse is the whitespace-chunk join, as in `normalizeCounterpartyForMatch`). -/
def normalizeHeader (h : Str) : Str :=
  let t := trimL (lowerL h)
  let t2 := t.map (fun c => if c == '\n' then ' ' else c)
  joinSpace (jsWords t2)

def findColumnIndexAux (normalized : List Str) : List Str → Option Nat
  | [] => none
  | kw :: rest =>
    let kwLower := lowerL kw
    match normalized.findIdx? (fun h => containsSub h kwLower) with
    | some idx => some idx
    | none => findColumnIndexAux normalized rest

/-- `findColumnIndex` (part_003, 281-289); `none` is the JS `-1`. -/
def findColumnIndex (headers : List Str) (keywords : List Str) : Option Nat :=
  findColumnIndexAux (headers.map normalizeHeader) keywords

-- ========== Header-row search (part_003, 158-196) ==========

def headerKeywords : List Str :=
  (["дата", "сумма", "статья", "контрагент", "период", "документ",
    "аналитика", "кошелек", "кошелёк", "филиал", "примечание",
    "кредит", "дебет", "сальдо", "группа", "справочник",
    "статья ддс", "вид деятельности", "назначение", "поступлен"]).map String.data

/-- JS `Number(string)` for a trimmed non-empty literal: strict decimal with optional
sign and dot (`none` is NaN; hex/exponent forms are outside the model's data). -/
def jsNumberLiteral (t : Str) : Option ℚ :=
  let signRest : ℚ × Str :=
    match t with
    | '-' :: r => (-1, r)
    | '+' :: r => (1, r)
    | r => (1, r)
  let sign := signRest.1
  let rest := signRest.2
  let intPart := rest.takeWhile Char.isDigit
  let rest2 := rest.dropWhile Char.isDigit
  match rest2 with
  | [] => if intPart = [] then none else some (sign * (digitsToNat intPart : ℚ))
  | '.' :: r2 =>
    if r2.all Char.isDigit ∧ (intPart ≠ [] ∨ r2 ≠ []) then
      some (sign * ((digitsToNat intPart : ℚ) + (digitsToNat r2 : ℚ) / 10 ^ r2.length))
    else none
  | _ => none

/-- JS `Number(cell)` (`none` is NaN). -/
def jsNumberOfCell (cell : CellValue) : Option ℚ :=
  match cell with
  | .num q => some q
  | .str s =>
    let t := trimL s
    if t = [] then some 0 else jsNumberLiteral t

/-- The `cellStr` of the scoring loop: `String(cell || '').toLowerCase().trim()`
with newlines turned into spaces. -/
def scoreCellStr (cell : CellValue) : Str :=
  (trimL (lowerL (cellToStr (some cell)))).map (fun c => if c == '\n' then ' ' else c)

/-- Row score of `findHeaderRow`: 2 per keyword cell, 1/2 per non-numeric text cell of
length > 1; blank cells are skipped. -/
def rowScore (row : List CellValue) : ℚ :=
  row.foldl
    (fun score cell =>
      let cellStr := scoreCellStr cell
      if cellStr = [] then score
      else
        let score1 := if headerKeywords.any (fun kw => containsSub cellStr kw) then score + 2 else score
        if (jsNumberOfCell cell).isNone ∧ 1 < cellStr.length then score1 + 1 / 2 else score1)
    0

/-- Does a cell's normalised text contain a header keyword? -/
def cellKeywordHit (cell : CellValue) : Bool :=
  headerKeywords.any (fun kw => containsSub (scoreCellStr cell) kw)

/-- Is a cell non-numeric (`Number` gives NaN) with normalised text longer than one
character? -/
def cellTexty (cell : CellValue) : Bool :=
  (jsNumberOfCell cell).isNone && decide (1 < (scoreCellStr cell).length)

/-- One cell of the scoring fold of `rowScore`, as a named function. -/
def scoreStep (score : ℚ) (cell : CellValue) : ℚ :=
  let cellStr := scoreCellStr cell
  if cellStr = [] then score
  else
    let score1 := if headerKeywords.any (fun kw => containsSub cellStr kw) then score + 2 else score
    if (jsNumberOfCell cell).isNone ∧ 1 < cellStr.length then score1 + 1 / 2 else score1

structure HeaderRowResult where
  headerRowIndex : Nat
  headers : List Str
deriving DecidableEq, Repr

/-- The `bestRow`/`bestScore` loop of `findHeaderRow` (strict improvement only, so the
earliest row of maximal score wins). -/
def scanRows : List (List CellValue) → Nat → Nat → ℚ → Nat × ℚ
  | [], _, bestRow, bestScore => (bestRow, bestScore)
  | r :: rest, i, bestRow, bestScore =>
    let score := rowScore r
    if bestScore < score then scanRows rest (i + 1) i score
    else scanRows rest (i + 1) bestRow bestScore

def findHeaderRow (data : Grid) (maxRows : Nat) : HeaderRowResult :=
  let best := scanRows (data.take maxRows) 0 0 0
  { headerRowIndex := best.1
    headers := (data.getD best.1 []).map (fun h => cellToStr (some h)) }

-- ========== Journal extractors (part_003, 352-456 and 576-623) ==========

/-- `String(col !== -1 ? (row[col] || '') : '').trim()`. -/
def colStr (row : List CellValue) (col : Option Nat) : Str :=
  trimL (match col with
    | some c => cellToStr (row.get? c)
    | none => [])

/-- `parseAmount(col !== -1 ? row[col] : 0)`. -/
def colAmount (row : List CellValue) (col : Option Nat) : ℚ :=
  match col with
  | some c => parseAmount (row.get? c)
  | none => 0

/-- The push loop shared by the three extractors: `nextId` is drawn (via the abstract
id supply `ids`) once per emitted transaction. -/
def emitLoop (ids : Nat → Str) (mkRow : List CellValue → Option Transaction) :
    Nat → List (List CellValue) → List Transaction
  | _, [] => []
  | k, row :: rest =>
    match mkRow row with
    | some t => { t with id := ids k } :: emitLoop ids mkRow (k + 1) rest
    | none => emitLoop ids mkRow k rest

/-- `parseCashJournal` (part_003, 352-401).  `dateOf` abstracts `parseDate` applied to
a looked-up cell (`XLSX.SSF` serials and `new Date` are host functionality); `ids`
abstracts `nextId`. -/
def parseCashJournal (dateOf : Option CellValue → Option Int) (ids : Nat → Str)
    (data : Grid) (sheetName sourceName : Str) (articlesRef : List ArticleDDS)
    (headerRowIndex : Nat) : List Transaction :=
  if data.length < headerRowIndex + 2 then []
  else
    let headers := (data.getD headerRowIndex []).map (fun h => cellToStr (some h))
    let dateCol := findColumnIndex headers (["дата оплаты", "дата поступления", "дата"].map String.data)
    let walletCol := findColumnIndex headers (["кошелек", "кошелёк"].map String.data)
    let amountCol := findColumnIndex headers (["сумма в рублях", "сумма"].map String.data)
    let noteCol := findColumnIndex headers (["примечание", "назначение"].map String.data)
    let branchCol := findColumnIndex headers (["филиал"].map String.data)
    let counterpartyCol := findColumnIndex headers (["контрагент"].map String.data)
    let articleCol := findColumnIndex headers (["статья дохода", "статья расхода", "статья"].map String.data)
    let accrualCol := findColumnIndex headers (["месяц начисления"].map String.data)
    let mkRow : List CellValue → Option Transaction := fun row =>
      let date := match dateCol with
        | some c => dateOf (row.get? c)
        | none => none
      let amount := colAmount row amountCol
      let article := colStr row articleCol
      if date = none ∧ amount = 0 ∧ article = [] then none
      else if amount = 0 then none
      else some
        { id := []
          date := date.getD 0
          source := sourceName
          sheet := sheetName
          sheetType := .cash_journal
          wallet := colStr row walletCol
          amount := amount
          direction := getDirection article articlesRef
          note := colStr row noteCol
          branch := colStr row branchCol
          counterparty := colStr row counterpartyCol
          article := article
          accrualMonth := colStr row accrualCol
          document := [] }
    emitLoop ids mkRow 0 (data.drop (headerRowIndex + 1))

/-- `parseBankJournal` (part_003, 405-456): like the cash journal, but the counterparty
comes from the debit analytics column on outflows and the credit analytics column on
inflows. -/
def parseBankJournal (dateOf : Option CellValue → Option Int) (ids : Nat → Str)
    (data : Grid) (sheetName sourceName : Str) (articlesRef : List ArticleDDS)
    (headerRowIndex : Nat) : List Transaction :=
  if data.length < headerRowIndex + 2 then []
  else
    let headers := (data.getD headerRowIndex []).map (fun h => cellToStr (some h))
    let dateCol := findColumnIndex headers (["период", "дата"].map String.data)
    let docCol := findColumnIndex headers (["документ"].map String.data)
    let dtCol := findColumnIndex headers (["аналитика дт"].map String.data)
    let ktCol := findColumnIndex headers (["аналитика кт"].map String.data)
    let amountCol := findColumnIndex headers (["сумма для ддс", "сумма ддс", "сумма"].map String.data)
    let articleCol := findColumnIndex headers (["статья"].map String.data)
    let accrualCol := findColumnIndex headers (["месяц начисления"].map String.data)
    let mkRow : List CellValue → Option Transaction := fun row =>
      let date := match dateCol with
        | some c => dateOf (row.get? c)
        | none => none
      let amount := colAmount row amountCol
      let article := colStr row articleCol
      if date = none ∧ amount = 0 ∧ article = [] then none
      else if amount = 0 then none
      else
        let direction := getDirection article articlesRef
        let counterparty :=
          if direction = Direction.outflow then colStr row dtCol else colStr row ktCol
        some
          { id := []
            date := date.getD 0
            source := sourceName
            sheet := sheetName
            sheetType := .bank_journal
            wallet := []
            amount := amount
            direction := direction
            note := []
            branch := []
            counterparty := counterparty
            article := article
            accrualMonth := colStr row accrualCol
            document := colStr row docCol }
    emitLoop ids mkRow 0 (data.drop (headerRowIndex + 1))

/-- `tryParseFallback` (part_003, 576-623). -/
def tryParseFallback (dateOf : Option CellValue → Option Int) (ids : Nat → Str)
    (data : Grid) (sheetName sourceName : Str) (articlesRef : List ArticleDDS)
    (headerRowIndex : Nat) : List Transaction :=
  if data.length < headerRowIndex + 2 then []
  else
    let headers := (data.getD headerRowIndex []).map (fun h => cellToStr (some h))
    let dateCol := findColumnIndex headers (["дата", "период", "date"].map String.data)
    let amountCol := findColumnIndex headers (["сумма", "amount", "итого"].map String.data)
    let articleCol := findColumnIndex headers (["статья", "назначение", "категория"].map String.data)
    if dateCol = none ∧ amountCol = none then []
    else
      let counterpartyCol := findColumnIndex headers (["контрагент", "получатель", "плательщик"].map String.data)
      let noteCol := findColumnIndex headers (["примечание", "комментарий", "описание", "назначение"].map String.data)
      let mkRow : List CellValue → Option Transaction := fun row =>
        let date := match dateCol with
          | some c => dateOf (row.get? c)
          | none => none
        let amount := colAmount row amountCol
        let article := colStr row articleCol
        if date = none ∧ amount = 0 then none
        else if amount = 0 then none
        else some
          { id := []
            date := date.getD 0
            source := sourceName
            sheet := sheetName
            sheetType := .cash_journal
            wallet := []
            amount := amount
            direction := getDirection article articlesRef
            note := colStr row noteCol
            branch := []
            counterparty := colStr row counterpartyCol
            article := article
            accrualMonth := []
            document := [] }
      emitLoop ids mkRow 0 (data.drop (headerRowIndex + 1))

-- ========== Derived key sets of a dictionary entry (specification views) ==========

/-- The exact-map keys contributed by one dictionary entry: its normalised,
organisational-prefix-stripped and fully org-token-stripped forms, blanks omitted. -/
def entryExactKeys (displayName : Str) : List Str :=
  let cleaned := cleanCounterparty displayName
  let normalized := normalizeCounterpartyForMatch cleaned
  let stripped := stripOrgPrefixes normalized
  let compactOrgAgnostic := stripOrgTokens normalized
  ([normalized, stripped, compactOrgAgnostic]).filter (fun k => k ≠ [])

/-- The token-map key contributed by one dictionary entry (empty string = none). -/
def entryTokenKey (displayName : Str) : Str :=
  let cleaned := cleanCounterparty displayName
  let normalized := normalizeCounterpartyForMatch cleaned
  let stripped := stripOrgPrefixes normalized
  let compactOrgAgnostic := stripOrgTokens normalized
  buildTokenSignature (strOr compactOrgAgnostic (strOr stripped normalized))

/-- Does entry `disp` own the (non-blank) token-map key `k`? -/
def tokenKeyMatches (k disp : Str) : Bool :=
  decide (entryTokenKey disp = k) && ! k.isEmpty

def withoutTransactions (s : DataSource) : DataSource := { s with transactions := [] }

/-- The four lookup keys `resolveCounterpartyName` derives from a transaction's raw
counterparty value. -/
def txNormalized (rawCounterparty : Str) : Str :=
  normalizeCounterpartyForMatch (cleanCounterparty (trimL rawCounterparty))

def txStripped (rawCounterparty : Str) : Str :=
  stripOrgPrefixes (txNormalized rawCounterparty)

def txCompact (rawCounterparty : Str) : Str :=
  stripOrgTokens (txNormalized rawCounterparty)

def txSignature (rawCounterparty : Str) : Str :=
  buildTokenSignature
    (strOr (txCompact rawCounterparty) (strOr (txStripped rawCounterparty) (txNormalized rawCounterparty)))

/-- All four lookup levels of `resolveCounterpartyName` miss in `dictionary`. -/
def resolverMiss (rawCounterparty : Str) (dictionary : CpDict) : Bool :=
  (alookup dictionary.exactMap (txNormalized rawCounterparty)).isNone &&
  (alookup dictionary.exactMap (txStripped rawCounterparty)).isNone &&
  (alookup dictionary.exactMap (txCompact rawCounterparty)).isNone &&
  ((txSignature rawCounterparty).isEmpty ||
    (alookup dictionary.tokenMap (txSignature rawCounterparty)).isNone)

/-- The value of the `found` variable in `resolveCounterpartyName`: the falsy-`||`
chain over the three exact-map lookups. -/
def foundVal (rawCounterparty : Str) (dictionary : CpDict) : Str :=
  strOr ((alookup dictionary.exactMap (txNormalized rawCounterparty)).getD [])
    (strOr ((alookup dictionary.exactMap (txStripped rawCounterparty)).getD [])
      ((alookup dictionary.exactMap (txCompact rawCounterparty)).getD []))

-- ========== Concrete sample data (used by witness theorems) ==========

def noDate : Option CellValue → Option Int := fun _ => none

def nilIds : Nat → Str := fun _ => []

def defaultTx : Transaction :=
  ⟨[], 0, [], [], .unknown, [], 0, .outflow, [], [], [], [], [], []⟩

def sampleCashGrid : Grid :=
  [[.str "Дата".data, .str "Сумма".data, .str "Контрагент".data],
   [.str "01.02.2024".data, .num 100, .str "Иванов".data]]

def sampleBankGrid : Grid :=
  [[.str "Период".data, .str "Документ".data, .str "Аналитика Дт".data,
    .str "Аналитика Кт".data, .str "Сумма".data, .str "Статья".data],
   [.str "x".data, .str "пп5".data, .str "ООО Альфа".data, .str "ООО Бета".data,
    .num 10, .str "Аренда".data]]

def sampleFallbackGrid : Grid :=
  [[.str "Дата".data, .str "Итого".data],
   [.str "y".data, .num 7]]

def sampleCashTx : Transaction :=
  (parseCashJournal noDate nilIds sampleCashGrid "Касса".data "f".data [] 0).headD defaultTx

def sampleBankTx : Transaction :=
  (parseBankJournal noDate nilIds sampleBankGrid "РС".data "f".data [] 0).headD defaultTx

def sampleFallbackTx : Transaction :=
  (tryParseFallback noDate nilIds sampleFallbackGrid "Лист1".data "f".data [] 0).headD defaultTx

def sampleRefSource : DataSource :=
  { id := "src1".data, name := "ref.xlsx".data, type := .file, url := none,
    status := .ready, error := none, sheets := [], transactions := [],
    articles := [], counterparties := [⟨"ООО Ромашка".data⟩] }

def sampleTx : Transaction :=
  { id := "t1".data, date := 0, source := "f".data, sheet := "Касса".data,
    sheetType := .cash_journal, wallet := [], amount := 5, direction := .inflow,
    note := [], branch := [], counterparty := "Ромашка ООО".data, article := [],
    accrualMonth := [], document := [] }

def sampleTxSource : DataSource :=
  { id := "src2".data, name := "f".data, type := .file, url := none,
    status := .ready, error := none,
    sheets := [⟨"Касса".data, .cash_journal, 1, "src2".data, "f".data, true⟩],
    transactions := [sampleTx], articles := [],
    counterparties := [⟨"ООО Ромашка".data⟩] }

-- ========== Generic list lemmas for the string model ==========

theorem dropWhile_cons_head_false {p : Char → Bool} {l : Str} {c : Char} {t : Str}
    (h : l.dropWhile p = c :: t) : p c = false := by
  induction l with
  | nil => simp at h
  | cons a as ih =>
    by_cases hpa : p a = true
    · rw [List.dropWhile_cons_of_pos hpa] at h; exact ih h
    · rw [List.dropWhile_cons_of_neg hpa] at h
      cases h; simpa using hpa

theorem dropWhile_eq_self_of_head {p : Char → Bool} {l : Str}
    (h : ∀ c t, l = c :: t → p c = false) : l.dropWhile p = l := by
  cases l with
  | nil => rfl
  | cons a as => exact List.dropWhile_cons_of_neg (by simp [h a as rfl])

theorem mem_dropWhile_of_mem {p : Char → Bool} {l : Str} {c : Char}
    (hc : c ∈ l) (hp : p c = false) : c ∈ l.dropWhile p := by
  induction l with
  | nil => cases hc
  | cons a as ih =>
    by_cases hpa : p a = true
    · rw [List.dropWhile_cons_of_pos hpa]
      rcases List.mem_cons.mp hc with h | h
      · subst h; rw [hpa] at hp; cases hp
      · exact ih h
    · rw [List.dropWhile_cons_of_neg hpa]; exact hc

theorem dropWhile_mem_subset {p : Char → Bool} {l : Str} {c : Char}
    (hc : c ∈ l.dropWhile p) : c ∈ l :=
  (List.dropWhile_sublist p (l := l)).mem hc

theorem dropTrail_mem_subset {p : Char → Bool} {l : Str} {c : Char}
    (hc : c ∈ dropTrail p l) : c ∈ l := by
  unfold dropTrail at hc
  rw [List.mem_reverse] at hc
  exact List.mem_reverse.mp (dropWhile_mem_subset hc)

theorem mem_dropTrail_of_mem {p : Char → Bool} {l : Str} {c : Char}
    (hc : c ∈ l) (hp : p c = false) : c ∈ dropTrail p l := by
  unfold dropTrail
  rw [List.mem_reverse]
  exact mem_dropWhile_of_mem (List.mem_reverse.mpr hc) hp

theorem dropTrail_getLast_false {p : Char → Bool} {l : Str} {c : Char}
    (h : (dropTrail p l).getLast? = some c) : p c = false := by
  unfold dropTrail at h
  rw [List.getLast?_reverse] at h
  rcases hd : l.reverse.dropWhile p with _ | ⟨a, t⟩
  · rw [hd] at h; cases h
  · rw [hd] at h; cases h; exact dropWhile_cons_head_false hd

theorem dropTrail_eq_self {p : Char → Bool} {l : Str}
    (h : ∀ c, l.getLast? = some c → p c = false) : dropTrail p l = l := by
  unfold dropTrail
  rw [dropWhile_eq_self_of_head, List.reverse_reverse]
  intro c t hct
  apply h
  rw [← List.head?_reverse, hct]; rfl

theorem dropTrail_isPrefix {p : Char → Bool} (l : Str) : dropTrail p l <+: l := by
  unfold dropTrail
  have h := List.dropWhile_suffix (l := l.reverse) p
  rcases h with ⟨t, ht⟩
  exact ⟨t.reverse, by rw [← List.reverse_append, ht, List.reverse_reverse]⟩

theorem dropWhile_isSuffix {p : Char → Bool} (l : Str) : l.dropWhile p <:+ l :=
  List.dropWhile_suffix p

-- head / last transfer along prefixes and suffixes

theorem head_of_isPrefix {l₁ l₂ : Str} {c : Char} {t : Str}
    (h : l₁ <+: l₂) (he : l₁ = c :: t) : ∃ t', l₂ = c :: t' := by
  rcases h with ⟨r, hr⟩
  subst he; exact ⟨t ++ r, by simpa using hr.symm⟩

theorem getLast?_of_isSuffix {l₁ l₂ : Str} {c : Char}
    (h : l₁ <:+ l₂) (hne : l₁ ≠ []) (he : l₁.getLast? = some c) : l₂.getLast? = some c := by
  rcases h with ⟨r, hr⟩
  subst hr
  rw [List.getLast?_append_of_ne_nil _ hne]
  exact he

-- ========== trimL lemmas ==========

theorem trimL_mem_subset {l : Str} {c : Char} (hc : c ∈ trimL l) : c ∈ l := by
  unfold trimL at hc
  exact dropWhile_mem_subset (dropTrail_mem_subset hc)

theorem mem_trimL_of_mem {l : Str} {c : Char} (hc : c ∈ l) (hp : wsChar c = false) :
    c ∈ trimL l := by
  unfold trimL
  exact mem_dropTrail_of_mem (mem_dropWhile_of_mem hc hp) hp

theorem trimL_head_false {l : Str} {c : Char} {t : Str}
    (h : trimL l = c :: t) : wsChar c = false := by
  unfold trimL at h
  rcases head_of_isPrefix (dropTrail_isPrefix _) h with ⟨t', ht'⟩
  exact dropWhile_cons_head_false ht'

theorem trimL_getLast_false {l : Str} {c : Char}
    (h : (trimL l).getLast? = some c) : wsChar c = false :=
  dropTrail_getLast_false h

theorem trimL_eq_self {l : Str}
    (hh : ∀ c t, l = c :: t → wsChar c = false)
    (hl : ∀ c, l.getLast? = some c → wsChar c = false) : trimL l = l := by
  unfold trimL
  rw [dropWhile_eq_self_of_head hh]
  exact dropTrail_eq_self hl

theorem trimL_idem (l : Str) : trimL (trimL l) = trimL l := by
  apply trimL_eq_self
  · intro c t h; exact trimL_head_false h
  · intro c h; exact trimL_getLast_false h

theorem trimL_nil : trimL [] = [] := rfl

-- ========== charFold lemmas ==========

theorem charFold_eq_or_mem (c : Char) :
    charFold c = c ∨ ∃ pr ∈ engToRus, pr.1 = c ∧ charFold c = pr.2 := by
  rcases h : engToRus.find? (fun p => p.1 == c) with _ | pr
  · left; unfold charFold; rw [h]; rfl
  · right
    refine ⟨pr, List.mem_of_find?_eq_some h, ?_, by unfold charFold; rw [h]; rfl⟩
    have := List.find?_some h
    simpa using this

theorem engToRus_targets_fixed :
    engToRus.all (fun pr => charFold pr.2 == pr.2) = true := by decide

theorem engToRus_ws :
    engToRus.all (fun pr => !wsChar pr.1 && !wsChar pr.2) = true := by decide

theorem charFold_idem (c : Char) : charFold (charFold c) = charFold c := by
  rcases charFold_eq_or_mem c with h | ⟨pr, hmem, _, hval⟩
  · rw [h, h]
  · rw [hval]
    have := List.all_eq_true.mp engToRus_targets_fixed pr hmem
    simpa using this

theorem wsChar_charFold (c : Char) : wsChar (charFold c) = wsChar c := by
  rcases charFold_eq_or_mem c with h | ⟨pr, hmem, hkey, hval⟩
  · rw [h]
  · rw [hval, ← hkey]
    have := List.all_eq_true.mp engToRus_ws pr hmem
    simp at this
    rw [this.1, this.2]

theorem mem_engToRusFold_fixed {l : Str} {c : Char} (hc : c ∈ engToRusFold l) :
    charFold c = c := by
  unfold engToRusFold at hc
  rcases List.mem_map.mp hc with ⟨a, _, ha⟩
  rw [← ha]; exact charFold_idem a

theorem engToRusFold_eq_self {l : Str} (h : ∀ c ∈ l, charFold c = c) :
    engToRusFold l = l := by
  unfold engToRusFold
  calc l.map charFold = l.map id := List.map_congr_left h
  _ = l := List.map_id l

-- ========== splitRN lemmas ==========

theorem splitNLAux_no_newline {l acc : Str} (hacc : '\n' ∉ acc) :
    ∀ p ∈ splitNLAux l acc, '\n' ∉ p := by
  induction l generalizing acc with
  | nil =>
    intro p hp
    rw [splitNLAux] at hp
    rcases List.mem_singleton.mp hp with rfl
    simpa using hacc
  | cons c rest ih =>
    intro p hp
    rw [splitNLAux] at hp
    by_cases hc : c = '\n'
    · rw [if_pos hc] at hp
      rcases List.mem_cons.mp hp with rfl | hp'
      · simpa using hacc
      · exact ih (by simp) p hp'
    · rw [if_neg hc] at hp
      refine ih ?_ p hp
      intro hmem
      rcases List.mem_cons.mp hmem with h | h
      · exact hc h.symm
      · exact hacc h

theorem splitNLAux_of_no_newline {l acc : Str} (h : '\n' ∉ l) :
    splitNLAux l acc = [acc.reverse ++ l] := by
  induction l generalizing acc with
  | nil => rw [splitNLAux]; simp
  | cons c rest ih =>
    rw [splitNLAux]
    have hc : ¬ c = '\n' := fun hh => h (hh ▸ List.mem_cons_self c rest)
    rw [if_neg hc, ih (fun hh => h (List.mem_cons_of_mem c hh))]
    simp

theorem splitNLAux_char_subset {l acc : Str} :
    ∀ p ∈ splitNLAux l acc, ∀ c ∈ p, c ∈ acc ∨ c ∈ l := by
  induction l generalizing acc with
  | nil =>
    intro p hp c hc
    rw [splitNLAux] at hp
    rcases List.mem_singleton.mp hp with rfl
    exact Or.inl (List.mem_reverse.mp hc)
  | cons d rest ih =>
    intro p hp c hc
    rw [splitNLAux] at hp
    by_cases hd : d = '\n'
    · rw [if_pos hd] at hp
      rcases List.mem_cons.mp hp with rfl | hp'
      · exact Or.inl (List.mem_reverse.mp hc)
      · rcases ih p hp' c hc with h | h
        · cases h
        · exact Or.inr (List.mem_cons_of_mem d h)
    · rw [if_neg hd] at hp
      rcases ih p hp c hc with h | h
      · rcases List.mem_cons.mp h with rfl | h'
        · exact Or.inr (List.mem_cons_self c rest)
        · exact Or.inl h'
      · exact Or.inr (List.mem_cons_of_mem d h)

theorem splitNLAux_mem_of_acc {l : Str} :
    ∀ {acc c}, c ∈ acc → ∃ p ∈ splitNLAux l acc, c ∈ p := by
  induction l with
  | nil =>
    intro acc c hc
    rw [splitNLAux]
    exact ⟨acc.reverse, List.mem_singleton_self _, List.mem_reverse.mpr hc⟩
  | cons d rest ih =>
    intro acc c hc
    rw [splitNLAux]
    by_cases hd : d = '\n'
    · rw [if_pos hd]
      exact ⟨acc.reverse, List.mem_cons_self _ _, List.mem_reverse.mpr hc⟩
    · rw [if_neg hd]
      exact ih (List.mem_cons_of_mem d hc)

theorem splitNLAux_survivor {l : Str} :
    ∀ {acc}, (∃ c ∈ l, wsChar c = false) →
      ∃ p ∈ splitNLAux l acc, ∃ c ∈ p, wsChar c = false := by
  induction l with
  | nil => intro acc h; rcases h with ⟨c, hc, _⟩; cases hc
  | cons d rest ih =>
    intro acc h
    rcases h with ⟨c, hc, hws⟩
    rw [splitNLAux]
    by_cases hd : d = '\n'
    · rw [if_pos hd]
      have hcr : c ∈ rest := by
        rcases List.mem_cons.mp hc with rfl | h'
        · rw [hd] at hws; simp [wsChar] at hws
        · exact h'
      rcases ih ⟨c, hcr, hws⟩ with ⟨p, hp, hcp⟩
      exact ⟨p, List.mem_cons_of_mem _ hp, hcp⟩
    · rw [if_neg hd]
      rcases List.mem_cons.mp hc with rfl | h'
      · rcases splitNLAux_mem_of_acc (l := rest) (List.mem_cons_self c acc) with ⟨p, hp, hcp⟩
        exact ⟨p, hp, c, hcp, hws⟩
      · exact ih ⟨c, h', hws⟩

-- dropOneCR / mapButLast transfer

theorem dropOneCR_subset {l : Str} {c : Char} (hc : c ∈ dropOneCR l) : c ∈ l := by
  unfold dropOneCR at hc
  split at hc
  · exact List.dropLast_subset l hc
  · exact hc

theorem dropOneCR_no_newline {l : Str} (h : '\n' ∉ l) : '\n' ∉ dropOneCR l :=
  fun hc => h (dropOneCR_subset hc)

theorem mem_dropOneCR_of_mem {l : Str} {c : Char} (hc : c ∈ l) (hne : c ≠ '\r') :
    c ∈ dropOneCR l := by
  unfold dropOneCR
  split
  · next hlast =>
    have hnil : l ≠ [] := by rintro rfl; simp at hlast
    have hdec := List.dropLast_append_getLast hnil
    rw [← hdec] at hc
    rcases List.mem_append.mp hc with h | h
    · exact h
    · exfalso
      rcases List.mem_singleton.mp h with rfl
      rw [List.getLast?_eq_getLast l hnil] at hlast
      injection hlast with h2
      exact hne h2
  · exact hc

theorem mapButLast_mem {f : Str → Str} {ps : List Str} {p : Str}
    (hp : p ∈ mapButLast f ps) : (∃ q ∈ ps, p = f q) ∨ p ∈ ps := by
  induction ps with
  | nil => cases hp
  | cons x xs ih =>
    cases xs with
    | nil =>
      rw [mapButLast] at hp
      exact Or.inr hp
    | cons y ys =>
      rw [mapButLast] at hp
      rcases List.mem_cons.mp hp with rfl | hp'
      · exact Or.inl ⟨x, List.mem_cons_self _ _, rfl⟩
      · rcases ih hp' with ⟨q, hq, hfq⟩ | h
        · exact Or.inl ⟨q, List.mem_cons_of_mem x hq, hfq⟩
        · exact Or.inr (List.mem_cons_of_mem x h)

theorem mapButLast_exists_of_mem {f : Str → Str} {ps : List Str} {q : Str}
    (hq : q ∈ ps) : (∃ p ∈ mapButLast f ps, p = f q) ∨ q ∈ mapButLast f ps := by
  induction ps with
  | nil => cases hq
  | cons x xs ih =>
    cases xs with
    | nil =>
      rcases List.mem_singleton.mp hq with rfl
      rw [mapButLast]
      exact Or.inr (List.mem_singleton_self q)
    | cons y ys =>
      rw [mapButLast]
      rcases List.mem_cons.mp hq with rfl | hq'
      · exact Or.inl ⟨f q, List.mem_cons_self _ _, rfl⟩
      · rcases ih hq' with ⟨p, hp, hfp⟩ | h
        · exact Or.inl ⟨p, List.mem_cons_of_mem _ hp, hfp⟩
        · exact Or.inr (List.mem_cons_of_mem _ h)

theorem mapButLast_singleton {f : Str → Str} {x : Str} : mapButLast f [x] = [x] := rfl

-- ========== jsWords lemmas ==========

theorem jsWordsAux_words_ok {l : Str} :
    ∀ {acc}, (∀ c ∈ acc, wsChar c = false) →
      ∀ w ∈ jsWordsAux l acc, w ≠ [] ∧ ∀ c ∈ w, wsChar c = false := by
  induction l with
  | nil =>
    intro acc hacc w hw
    rw [jsWordsAux] at hw
    split at hw
    · cases hw
    · next hne =>
      rcases List.mem_singleton.mp hw with rfl
      refine ⟨by simpa using hne, ?_⟩
      intro c hc
      exact hacc c (List.mem_reverse.mp hc)
  | cons d rest ih =>
    intro acc hacc w hw
    rw [jsWordsAux] at hw
    by_cases hd : wsChar d = true
    · rw [if_pos hd] at hw
      split at hw
      · exact ih (by simp) w hw
      · next hne =>
        rcases List.mem_cons.mp hw with rfl | hw'
        · refine ⟨by simpa using hne, ?_⟩
          intro c hc
          exact hacc c (List.mem_reverse.mp hc)
        · exact ih (by simp) w hw'
    · rw [if_neg hd] at hw
      refine ih ?_ w hw
      intro c hc
      rcases List.mem_cons.mp hc with rfl | hc'
      · simpa using hd
      · exact hacc c hc'

theorem jsWordsAux_char_subset {l : Str} :
    ∀ {acc}, ∀ w ∈ jsWordsAux l acc, ∀ c ∈ w, c ∈ acc ∨ c ∈ l := by
  induction l with
  | nil =>
    intro acc w hw c hc
    rw [jsWordsAux] at hw
    split at hw
    · cases hw
    · rcases List.mem_singleton.mp hw with rfl
      exact Or.inl (List.mem_reverse.mp hc)
  | cons d rest ih =>
    intro acc w hw c hc
    rw [jsWordsAux] at hw
    by_cases hd : wsChar d = true
    · rw [if_pos hd] at hw
      split at hw
      · rcases ih w hw c hc with h | h
        · cases h
        · exact Or.inr (List.mem_cons_of_mem d h)
      · rcases List.mem_cons.mp hw with rfl | hw'
        · exact Or.inl (List.mem_reverse.mp hc)
        · rcases ih w hw' c hc with h | h
          · cases h
          · exact Or.inr (List.mem_cons_of_mem d h)
    · rw [if_neg hd] at hw
      rcases ih w hw c hc with h | h
      · rcases List.mem_cons.mp h with rfl | h'
        · exact Or.inr (List.mem_cons_self c rest)
        · exact Or.inl h'
      · exact Or.inr (List.mem_cons_of_mem d h)

theorem jsWordsAux_ne_nil {l : Str} :
    ∀ {acc}, (acc ≠ [] ∨ ∃ c ∈ l, wsChar c = false) → jsWordsAux l acc ≠ [] := by
  induction l with
  | nil =>
    intro acc h
    rw [jsWordsAux]
    rcases h with h | ⟨c, hc, _⟩
    · rw [if_neg h]; simp
    · cases hc
  | cons d rest ih =>
    intro acc h
    rw [jsWordsAux]
    by_cases hd : wsChar d = true
    · rw [if_pos hd]
      by_cases hacc : acc = []
      · rw [if_pos hacc]
        have hrest : ∃ c ∈ rest, wsChar c = false := by
          rcases h with h | ⟨c, hc, hws⟩
          · exact absurd hacc h
          · rcases List.mem_cons.mp hc with rfl | hc'
            · rw [hd] at hws; cases hws
            · exact ⟨c, hc', hws⟩
        exact ih (Or.inr hrest)
      · rw [if_neg hacc]; simp
    · rw [if_neg hd]
      exact ih (Or.inl (by simp))

theorem jsWordsAux_append_word {w : Str} (hw : ∀ c ∈ w, wsChar c = false) :
    ∀ {l acc : Str}, jsWordsAux (w ++ l) acc = jsWordsAux l (w.reverse ++ acc) := by
  induction w with
  | nil => intro l acc; simp
  | cons a w' ih =>
    intro l acc
    have ha : wsChar a = false := hw a (List.mem_cons_self a w')
    rw [List.cons_append, jsWordsAux, ha]
    simp only [Bool.false_eq_true, if_false]
    rw [ih (fun c hc => hw c (List.mem_cons_of_mem a hc))]
    simp

-- ========== joinWith lemmas ==========

theorem joinWith_ne_nil {sep : Char} {ws : List Str} (hne : ws ≠ [])
    (hw : ∀ w ∈ ws, w ≠ []) : joinWith sep ws ≠ [] := by
  cases ws with
  | nil => exact absurd rfl hne
  | cons w ws' =>
    rw [joinWith]
    by_cases h : ws'.isEmpty = true
    · rw [if_pos h]; exact hw w (List.mem_cons_self _ _)
    · rw [if_neg h]; simp

theorem joinWith_char_subset {sep : Char} {ws : List Str} {c : Char}
    (hc : c ∈ joinWith sep ws) : c = sep ∨ ∃ w ∈ ws, c ∈ w := by
  induction ws with
  | nil => rw [joinWith] at hc; cases hc
  | cons w ws' ih =>
    rw [joinWith] at hc
    by_cases h : ws'.isEmpty = true
    · rw [if_pos h] at hc
      exact Or.inr ⟨w, List.mem_cons_self _ _, hc⟩
    · rw [if_neg h] at hc
      rcases List.mem_append.mp hc with h1 | h1
      · exact Or.inr ⟨w, List.mem_cons_self _ _, h1⟩
      · rcases List.mem_cons.mp h1 with rfl | h2
        · exact Or.inl rfl
        · rcases ih h2 with h3 | ⟨w', hw', hcw'⟩
          · exact Or.inl h3
          · exact Or.inr ⟨w', List.mem_cons_of_mem w hw', hcw'⟩

theorem joinWith_head {sep : Char} {w t : Str} {c : Char} {ws : List Str}
    (hw : w = c :: t) : ∃ t', joinWith sep (w :: ws) = c :: t' := by
  rw [joinWith]
  by_cases h : ws.isEmpty = true
  · rw [if_pos h, hw]; exact ⟨t, rfl⟩
  · rw [if_neg h, hw]; exact ⟨t ++ sep :: joinWith sep ws, rfl⟩

theorem joinWith_getLast {sep : Char} {ws : List Str} (hne : ws ≠ [])
    (hw : ∀ w ∈ ws, w ≠ []) :
    ∃ w ∈ ws, (joinWith sep ws).getLast? = w.getLast? := by
  induction ws with
  | nil => exact absurd rfl hne
  | cons w ws' ih =>
    rw [joinWith]
    by_cases h : ws'.isEmpty = true
    · rw [if_pos h]
      exact ⟨w, List.mem_cons_self _ _, rfl⟩
    · rw [if_neg h]
      have hne' : ws' ≠ [] := by simpa [List.isEmpty_iff] using h
      have hw' : ∀ v ∈ ws', v ≠ [] := fun v hv => hw v (List.mem_cons_of_mem w hv)
      have hjoin : joinWith sep ws' ≠ [] := joinWith_ne_nil hne' hw'
      rcases ih hne' hw' with ⟨v, hv, hvl⟩
      refine ⟨v, List.mem_cons_of_mem w hv, ?_⟩
      rw [List.getLast?_append_of_ne_nil _ (by simp : sep :: joinWith sep ws' ≠ [])]
      have : sep :: joinWith sep ws' = [sep] ++ joinWith sep ws' := rfl
      rw [this, List.getLast?_append_of_ne_nil _ hjoin]
      exact hvl

theorem jsWords_joinSpace {ws : List Str} (hne : ws ≠ [])
    (hw : ∀ w ∈ ws, w ≠ []) (hnws : ∀ w ∈ ws, ∀ c ∈ w, wsChar c = false) :
    jsWords (joinSpace ws) = ws := by
  induction ws with
  | nil => exact absurd rfl hne
  | cons w ws' ih =>
    unfold jsWords joinSpace
    rw [joinWith]
    by_cases h : ws'.isEmpty = true
    · rw [if_pos h]
      have h0 : ws' = [] := by simpa [List.isEmpty_iff] using h
      subst h0
      have hwne : w ≠ [] := hw w (List.mem_cons_self _ _)
      have hwc : ∀ c ∈ w, wsChar c = false := hnws w (List.mem_cons_self _ _)
      have := @jsWordsAux_append_word _ hwc [] []
      simp only [List.append_nil] at this
      rw [this, jsWordsAux]
      rw [if_neg (by simpa using hwne)]
      simp
    · rw [if_neg h]
      have hne' : ws' ≠ [] := by simpa [List.isEmpty_iff] using h
      have hwc : ∀ c ∈ w, wsChar c = false := hnws w (List.mem_cons_self _ _)
      have happ := @jsWordsAux_append_word _ hwc (' ' :: joinWith ' ' ws') []
      rw [happ, jsWordsAux]
      rw [if_pos (by simp [wsChar] : wsChar ' ' = true)]
      have hwne : w ≠ [] := hw w (List.mem_cons_self _ _)
      rw [if_neg (by simpa using hwne)]
      simp only [List.append_nil, List.reverse_reverse]
      have ihr := ih hne' (fun v hv => hw v (List.mem_cons_of_mem w hv))
        (fun v hv => hnws v (List.mem_cons_of_mem w hv))
      unfold jsWords joinSpace at ihr
      rw [ihr]

theorem exists_nonws_of_trimmed {l : Str} (h : trimL l = l) (hne : l ≠ []) :
    ∃ c ∈ l, wsChar c = false := by
  cases l with
  | nil => exact absurd rfl hne
  | cons c t => exact ⟨c, List.mem_cons_self c t, trimL_head_false h⟩

theorem upperL_length (l : Str) : (upperL l).length = l.length := List.length_map l charUpper

-- ========== jsIndexOf lemmas ==========

theorem jsIndexOf_some_spec {p : Str} :
    ∀ {l : Str} {i : Nat}, jsIndexOf l p = some i →
      p.isPrefixOf (l.drop i) = true ∧ ∀ j < i, p.isPrefixOf (l.drop j) = false := by
  intro l
  induction l with
  | nil =>
    intro i h
    rw [jsIndexOf] at h
    split at h
    · next hp =>
      cases h
      have hp0 : p = [] := List.isEmpty_iff.mp hp
      subst hp0
      exact ⟨rfl, by omega⟩
    · cases h
  | cons c t ih =>
    intro i h
    rw [jsIndexOf] at h
    split at h
    · next hp =>
      cases h
      exact ⟨hp, by omega⟩
    · next hp =>
      rcases Option.map_eq_some'.mp h with ⟨i', hi', rfl⟩
      rcases ih hi' with ⟨h1, h2⟩
      refine ⟨h1, ?_⟩
      intro j hj
      cases j with
      | zero =>
        rw [List.drop_zero]
        cases hb : List.isPrefixOf p (c :: t) with
        | false => rfl
        | true => exact absurd hb hp
      | succ j' => exact h2 j' (by omega)

theorem jsIndexOf_none_spec {p : Str} :
    ∀ {l : Str}, jsIndexOf l p = none → ∀ j, p.isPrefixOf (l.drop j) = false := by
  intro l
  induction l with
  | nil =>
    intro h j
    rw [jsIndexOf] at h
    split at h
    · cases h
    · next hp =>
      cases p with
      | nil => simp [List.isEmpty] at hp
      | cons a q => simp [List.isPrefixOf]
  | cons c t ih =>
    intro h j
    rw [jsIndexOf] at h
    split at h
    · cases h
    · next hp =>
      have ht : jsIndexOf t p = none := by
        rcases hh : jsIndexOf t p with _ | v
        · rfl
        · rw [hh] at h; cases h
      cases j with
      | zero =>
        rw [List.drop_zero]
        cases hb : List.isPrefixOf p (c :: t) with
        | false => rfl
        | true => exact absurd hb hp
      | succ j2 => exact ih ht j2

theorem jsIndexOf_lt_length {l p : Str} {i : Nat} (hp : p ≠ [])
    (h : jsIndexOf l p = some i) : i < l.length := by
  have h1 := (jsIndexOf_some_spec h).1
  by_contra hle
  have hdrop : l.drop i = [] := List.drop_eq_nil_of_le (by omega)
  rw [hdrop] at h1
  cases p with
  | nil => exact hp rfl
  | cons a q => simp [List.isPrefixOf] at h1

-- ========== cutPosFold characterization ==========

theorem cutStep_none {u : Str} {acc : Nat} {ph : Str} (h : jsIndexOf u ph = none) :
    cutStep u acc ph = acc := by
  unfold cutStep; rw [h]

theorem cutStep_some_pos {u : Str} {acc : Nat} {ph : Str} {idx : Nat}
    (h : jsIndexOf u ph = some idx) (hc : 0 < idx ∧ idx < acc) :
    cutStep u acc ph = idx := by
  unfold cutStep; rw [h]
  show (if 0 < idx ∧ idx < acc then idx else acc) = idx
  exact if_pos hc

theorem cutStep_some_neg {u : Str} {acc : Nat} {ph : Str} {idx : Nat}
    (h : jsIndexOf u ph = some idx) (hc : ¬ (0 < idx ∧ idx < acc)) :
    cutStep u acc ph = acc := by
  unfold cutStep; rw [h]
  show (if 0 < idx ∧ idx < acc then idx else acc) = acc
  exact if_neg hc

theorem cutStep_spec (u : Str) (acc : Nat) (ph : Str) :
    cutStep u acc ph ≤ acc ∧
    (cutStep u acc ph = acc ∨ (jsIndexOf u ph = some (cutStep u acc ph) ∧ 0 < cutStep u acc ph)) ∧
    (∀ j, jsIndexOf u ph = some j → 0 < j → cutStep u acc ph ≤ j) := by
  rcases h : jsIndexOf u ph with _ | idx
  · rw [cutStep_none h]
    refine ⟨le_refl _, Or.inl rfl, ?_⟩
    intro j hj
    exact Option.noConfusion hj
  · by_cases hc : 0 < idx ∧ idx < acc
    · rw [cutStep_some_pos h hc]
      refine ⟨le_of_lt hc.2, Or.inr ⟨rfl, hc.1⟩, ?_⟩
      intro j hj _
      injection hj with hj2
      omega
    · rw [cutStep_some_neg h hc]
      refine ⟨le_refl _, Or.inl rfl, ?_⟩
      intro j hj hjpos
      injection hj with hj2
      omega

theorem cutFold_spec (u : Str) :
    ∀ (phs : List Str) (acc : Nat),
      phs.foldl (cutStep u) acc ≤ acc ∧
      (phs.foldl (cutStep u) acc = acc ∨
        ∃ ph ∈ phs, jsIndexOf u ph = some (phs.foldl (cutStep u) acc) ∧
          0 < phs.foldl (cutStep u) acc) ∧
      (∀ ph ∈ phs, ∀ j, jsIndexOf u ph = some j → 0 < j → phs.foldl (cutStep u) acc ≤ j) := by
  intro phs
  induction phs with
  | nil =>
    intro acc
    refine ⟨le_refl _, Or.inl rfl, ?_⟩
    intro ph hph
    cases hph
  | cons ph phs2 ih =>
    intro acc
    rw [List.foldl_cons]
    rcases cutStep_spec u acc ph with ⟨hle, hcases, hmin⟩
    rcases ih (cutStep u acc ph) with ⟨ihle, ihcases, ihmin⟩
    refine ⟨le_trans ihle hle, ?_, ?_⟩
    · rcases ihcases with heq | ⟨ph2, hph2, hfound⟩
      · rw [heq]
        rcases hcases with h | h
        · exact Or.inl h
        · exact Or.inr ⟨ph, List.mem_cons_self _ _, h⟩
      · exact Or.inr ⟨ph2, List.mem_cons_of_mem _ hph2, hfound⟩
    · intro ph2 hph2 j hj hjpos
      rcases List.mem_cons.mp hph2 with rfl | hmem
      · exact le_trans ihle (hmin j hj hjpos)
      · exact ihmin ph2 hmem j hj hjpos

theorem stopPhrases_ne_nil : ∀ ph ∈ stopPhrases, ph ≠ [] := by decide

theorem cutPosFold_le (u : Str) : cutPosFold u ≤ u.length :=
  (cutFold_spec u stopPhrases u.length).1

theorem cutPosFold_eq_length_of_no_pos {u : Str}
    (h : ∀ ph ∈ stopPhrases, ∀ i, i < u.length → 0 < i → ph.isPrefixOf (u.drop i) = false) :
    cutPosFold u = u.length := by
  unfold cutPosFold
  rcases (cutFold_spec u stopPhrases u.length).2.1 with heq | ⟨ph, hph, hfound, hpos⟩
  · exact heq
  · exfalso
    have hlt : stopPhrases.foldl (cutStep u) u.length < u.length :=
      jsIndexOf_lt_length (stopPhrases_ne_nil ph hph) hfound
    have hcontra := h ph hph _ hlt hpos
    rw [(jsIndexOf_some_spec hfound).1] at hcontra
    cases hcontra

theorem cutAtStops_eq_self_of_no_pos {s : Str}
    (h : ∀ ph ∈ stopPhrases, ∀ i, i < (upperL s).length → 0 < i →
      ph.isPrefixOf ((upperL s).drop i) = false) :
    cutAtStops s = s := by
  unfold cutAtStops
  dsimp only
  rw [cutPosFold_eq_length_of_no_pos h]
  simp

theorem cutAtStops_cases (s : Str) :
    cutAtStops s = s ∨ ∃ i, cutAtStops s = trimL (s.take i) := by
  unfold cutAtStops
  dsimp only
  split
  · exact Or.inr ⟨cutPosFold (upperL s), rfl⟩
  · exact Or.inl rfl

-- ========== stripTrailingJunk lemmas ==========

theorem wsChar_imp_trailJunk {c : Char} (h : wsChar c = true) : trailJunk c = true := by
  unfold trailJunk
  rw [h]
  rfl

theorem trailJunk_false_ws {c : Char} (h : trailJunk c = false) : wsChar c = false := by
  cases hw : wsChar c with
  | false => rfl
  | true => rw [wsChar_imp_trailJunk hw] at h; cases h

theorem stripTrailingJunk_getLast {s : Str} {c : Char}
    (h : (stripTrailingJunk s).getLast? = some c) : trailJunk c = false := by
  unfold stripTrailingJunk trimL at h
  rcases hwl : ((dropTrail trailJunk s).dropWhile wsChar).getLast? with _ | c2
  · have hnil : (dropTrail trailJunk s).dropWhile wsChar = [] := by
      rcases hd : (dropTrail trailJunk s).dropWhile wsChar with _ | ⟨a, t⟩
      · rfl
      · rw [hd] at hwl
        rw [List.getLast?_eq_none_iff] at hwl
        cases hwl
    rw [hnil] at h
    cases h
  · have hwne : (dropTrail trailJunk s).dropWhile wsChar ≠ [] := by
      intro hh; rw [hh] at hwl; cases hwl
    have hzlast : (dropTrail trailJunk s).getLast? = some c2 :=
      getLast?_of_isSuffix (dropWhile_isSuffix _) hwne hwl
    have hcj : trailJunk c2 = false := dropTrail_getLast_false hzlast
    have heq : dropTrail wsChar ((dropTrail trailJunk s).dropWhile wsChar) =
        (dropTrail trailJunk s).dropWhile wsChar := by
      apply dropTrail_eq_self
      intro d hd
      rw [hwl] at hd
      injection hd with hd2
      subst hd2
      exact trailJunk_false_ws hcj
    rw [heq, hwl] at h
    injection h with h2
    subst h2
    exact hcj

theorem endsWithJunk_strip (s : Str) : endsWithJunk (stripTrailingJunk s) = false := by
  unfold endsWithJunk
  rcases h : (stripTrailingJunk s).getLast? with _ | c
  · rfl
  · exact stripTrailingJunk_getLast h

theorem stripTrailingJunk_trimmed (s : Str) :
    trimL (stripTrailingJunk s) = stripTrailingJunk s := trimL_idem _

theorem stripTrailingJunk_subset {s : Str} {c : Char}
    (hc : c ∈ stripTrailingJunk s) : c ∈ s :=
  dropTrail_mem_subset (trimL_mem_subset hc)

theorem stripTrailingJunk_eq_self {s : Str}
    (hj : endsWithJunk s = false) (ht : trimL s = s) : stripTrailingJunk s = s := by
  unfold stripTrailingJunk
  have hdt : dropTrail trailJunk s = s := by
    apply dropTrail_eq_self
    intro c hc
    unfold endsWithJunk at hj
    rw [hc] at hj
    exact hj
  rw [hdt, ht]

theorem endsWithWs_of_not_junk {l : Str} (h : endsWithJunk l = false) :
    endsWithWs l = false := by
  unfold endsWithJunk at h
  unfold endsWithWs
  rcases hl : l.getLast? with _ | c
  · rfl
  · rw [hl] at h
    exact trailJunk_false_ws h

-- ========== splitRN transfer lemmas ==========

theorem splitRN_no_newline {s p : Str} (hp : p ∈ splitRN s) : '\n' ∉ p := by
  unfold splitRN at hp
  rcases mapButLast_mem hp with ⟨q, hq, rfl⟩ | hmem
  · exact dropOneCR_no_newline (splitNLAux_no_newline (by simp) q hq)
  · exact splitNLAux_no_newline (by simp) p hmem

theorem splitRN_char_subset {s p : Str} {c : Char} (hp : p ∈ splitRN s) (hc : c ∈ p) :
    c ∈ s := by
  unfold splitRN at hp
  rcases mapButLast_mem hp with ⟨q, hq, rfl⟩ | hmem
  · rcases splitNLAux_char_subset q hq c (dropOneCR_subset hc) with h | h
    · cases h
    · exact h
  · rcases splitNLAux_char_subset p hmem c hc with h | h
    · cases h
    · exact h

theorem splitRN_survivor {s : Str} (hex : ∃ c ∈ s, wsChar c = false) :
    ∃ p ∈ splitRN s, ∃ c ∈ p, wsChar c = false := by
  rcases @splitNLAux_survivor _ [] hex with ⟨q, hq, c, hcq, hws⟩
  have hcr : c ≠ '\r' := by
    intro hh
    subst hh
    simp [wsChar] at hws
  unfold splitRN
  rcases mapButLast_exists_of_mem (f := dropOneCR) hq with ⟨p, hp, rfl⟩ | hmem
  · exact ⟨dropOneCR q, hp, c, mem_dropOneCR_of_mem hcq hcr, hws⟩
  · exact ⟨q, hmem, c, hcq, hws⟩

-- ========== trimmed-string helpers ==========

theorem trimmed_head_ws_false {l : Str} {c : Char} (ht : trimL l = l)
    (hh : l.head? = some c) : wsChar c = false := by
  cases l with
  | nil => cases hh
  | cons a t =>
    injection hh with h2
    subst h2
    exact trimL_head_false ht

theorem trimmed_getLast_ws_false {l : Str} {c : Char} (ht : trimL l = l)
    (hl : l.getLast? = some c) : wsChar c = false := by
  apply trimL_getLast_false (l := l)
  rw [ht]
  exact hl

theorem trimL_eq_self_of_head_getLast {l : Str}
    (hh : ∀ c, l.head? = some c → wsChar c = false)
    (hl : ∀ c, l.getLast? = some c → wsChar c = false) : trimL l = l :=
  trimL_eq_self (fun c t hct => hh c (by rw [hct]; rfl)) hl

-- ========== selectLine lemmas ==========

theorem selectFromLines_mem {lines : List Str} {s : Str} (hne : lines ≠ []) :
    selectFromLines lines s ∈ lines := by
  unfold selectFromLines
  rcases lines with _ | ⟨l0, rest⟩
  · exact absurd rfl hne
  · rcases h1 : (l0 :: rest).find? orgLikeLine with _ | l
    · rcases h2 : (l0 :: rest).find? nonOperationLine with _ | l
      · simp
      · exact List.mem_of_find?_eq_some h2
    · exact List.mem_of_find?_eq_some h1

theorem cleanLines_ne_nil {s : Str} (hex : ∃ c ∈ s, wsChar c = false) :
    cleanLines s ≠ [] := by
  rcases splitRN_survivor hex with ⟨p, hp, c, hcp, hws⟩
  have hc : c ∈ trimL p := mem_trimL_of_mem hcp hws
  have hnn : trimL p ≠ [] := by
    intro hh
    rw [hh] at hc
    cases hc
  have hmem : trimL p ∈ cleanLines s := by
    unfold cleanLines
    apply List.mem_filter.mpr
    exact ⟨List.mem_map_of_mem _ hp, by simpa using hnn⟩
  intro hnil
  rw [hnil] at hmem
  cases hmem

theorem selectLine_mem_lines {s : Str} (hex : ∃ c ∈ s, wsChar c = false) :
    selectLine s ∈ cleanLines s := by
  unfold selectLine
  exact selectFromLines_mem (cleanLines_ne_nil hex)

theorem cleanLines_single {s : Str} (hnl : '\n' ∉ s) (ht : trimL s = s) (hne : s ≠ []) :
    cleanLines s = [s] := by
  unfold cleanLines splitRN
  rw [splitNLAux_of_no_newline hnl]
  simp [mapButLast, ht, hne]

theorem selectLine_eq_self {s : Str} (hnl : '\n' ∉ s) (ht : trimL s = s) (hne : s ≠ []) :
    selectLine s = s := by
  have hmem := selectLine_mem_lines (exists_nonws_of_trimmed ht hne)
  rw [cleanLines_single hnl ht hne] at hmem
  exact List.mem_singleton.mp hmem

theorem cleanLines_mem_props {s p : Str} (hp : p ∈ cleanLines s) :
    p ≠ [] ∧ trimL p = p ∧ '\n' ∉ p ∧ ∀ c ∈ p, c ∈ s := by
  unfold cleanLines at hp
  rcases List.mem_filter.mp hp with ⟨hmap, hne⟩
  rcases List.mem_map.mp hmap with ⟨q, hq, rfl⟩
  refine ⟨by simpa using hne, trimL_idem q, ?_, ?_⟩
  · intro hnl
    exact splitRN_no_newline hq (trimL_mem_subset hnl)
  · intro c hc
    exact splitRN_char_subset hq (trimL_mem_subset hc)

-- ========== Structure of cleanCounterparty's output ==========

theorem take3_ne_nil {ws : List Str} (h : ws ≠ []) : ws.take 3 ≠ [] := by
  cases ws with
  | nil => exact absurd rfl h
  | cons w rest => simp

theorem joinSpace_props {ws : List Str} (hne : ws ≠ [])
    (hgood : ∀ w ∈ ws, w ≠ [] ∧ ∀ c ∈ w, wsChar c = false) :
    '\n' ∉ joinSpace ws ∧ trimL (joinSpace ws) = joinSpace ws ∧
    endsWithWs (joinSpace ws) = false ∧
    (∀ c ∈ joinSpace ws, c = ' ' ∨ ∃ w ∈ ws, c ∈ w) := by
  have hsub : ∀ c ∈ joinSpace ws, c = ' ' ∨ ∃ w ∈ ws, c ∈ w :=
    fun c hc => joinWith_char_subset hc
  have hnl : '\n' ∉ joinSpace ws := by
    intro hmem
    rcases hsub _ hmem with h | ⟨w, hw, hcw⟩
    · exact absurd h (by decide)
    · have := (hgood w hw).2 '\n' hcw
      simp [wsChar] at this
  have hlast : endsWithWs (joinSpace ws) = false := by
    rcases @joinWith_getLast ' ' _ hne (fun w hw => (hgood w hw).1) with ⟨w, hw, hl⟩
    unfold endsWithWs joinSpace
    rw [hl]
    rcases hg : w.getLast? with _ | c
    · rfl
    · exact (hgood w hw).2 c (List.mem_of_mem_getLast? hg)
  have hhead : ∀ c, (joinSpace ws).head? = some c → wsChar c = false := by
    rcases ws with _ | ⟨w0, rest⟩
    · exact absurd rfl hne
    · intro c hc
      rcases List.exists_cons_of_ne_nil (hgood w0 (List.mem_cons_self _ _)).1 with ⟨c0, t0, hw0⟩
      rcases @joinWith_head ' ' _ _ _ rest hw0 with ⟨t2, ht2⟩
      unfold joinSpace at hc
      rw [ht2] at hc
      injection hc with h2
      subst h2
      exact (hgood w0 (List.mem_cons_self _ _)).2 c0 (by rw [hw0]; exact List.mem_cons_self _ _)
  have htrim : trimL (joinSpace ws) = joinSpace ws := by
    apply trimL_eq_self_of_head_getLast hhead
    intro c hc
    unfold endsWithWs at hlast
    rw [hc] at hlast
    exact hlast
  exact ⟨hnl, htrim, hlast, hsub⟩

theorem clean_struct (x : Str) :
    cleanCounterparty x = [] ∨
    ∃ s4 : Str, s4 ≠ [] ∧ trimL s4 = s4 ∧ '\n' ∉ s4 ∧ (∀ c ∈ s4, charFold c = c) ∧
      endsWithJunk s4 = false ∧ cleanCounterparty x = finalizeName s4 := by
  unfold cleanCounterparty
  dsimp only
  by_cases h0 : trimL x = []
  · rw [if_pos h0]
    exact Or.inl rfl
  · rw [if_neg h0]
    by_cases h4 : stripTrailingJunk (cutAtStops (selectLine (engToRusFold (trimL x)))) = []
    · rw [if_pos h4]
      exact Or.inl rfl
    · rw [if_neg h4]
      right
      -- properties of each stage
      have hs : trimL (trimL x) = trimL x := trimL_idem x
      have h1f : ∀ c ∈ engToRusFold (trimL x), charFold c = c :=
        fun c hc => mem_engToRusFold_fixed hc
      have h1t : trimL (engToRusFold (trimL x)) = engToRusFold (trimL x) := by
        apply trimL_eq_self_of_head_getLast
        · intro c hh
          unfold engToRusFold at hh
          rw [List.head?_map] at hh
          rcases Option.map_eq_some'.mp hh with ⟨c0, hc0, rfl⟩
          rw [wsChar_charFold]
          exact trimmed_head_ws_false hs hc0
        · intro c hh
          unfold engToRusFold at hh
          rw [List.getLast?_map] at hh
          rcases Option.map_eq_some'.mp hh with ⟨c0, hc0, rfl⟩
          rw [wsChar_charFold]
          exact trimmed_getLast_ws_false hs hc0
      have h1ne : engToRusFold (trimL x) ≠ [] := by
        unfold engToRusFold
        intro hh
        exact h0 (List.map_eq_nil_iff.mp hh)
      have hex1 : ∃ c ∈ engToRusFold (trimL x), wsChar c = false :=
        exists_nonws_of_trimmed h1t h1ne
      obtain ⟨h2ne, h2t, h2nl, h2sub⟩ := cleanLines_mem_props (selectLine_mem_lines hex1)
      have h2f : ∀ c ∈ selectLine (engToRusFold (trimL x)), charFold c = c :=
        fun c hc => h1f c (h2sub c hc)
      have h3sub : ∀ c ∈ cutAtStops (selectLine (engToRusFold (trimL x))),
          c ∈ selectLine (engToRusFold (trimL x)) := by
        rcases cutAtStops_cases (selectLine (engToRusFold (trimL x))) with he | ⟨i, he⟩
        · rw [he]
          exact fun c hc => hc
        · rw [he]
          intro c hc
          exact List.take_subset _ _ (trimL_mem_subset hc)
      have h4sub : ∀ c ∈ stripTrailingJunk (cutAtStops (selectLine (engToRusFold (trimL x)))),
          c ∈ selectLine (engToRusFold (trimL x)) :=
        fun c hc => h3sub c (stripTrailingJunk_subset hc)
      refine ⟨stripTrailingJunk (cutAtStops (selectLine (engToRusFold (trimL x)))),
        h4, stripTrailingJunk_trimmed _, ?_, ?_, endsWithJunk_strip _, rfl⟩
      · intro hnl
        exact h2nl (h4sub _ hnl)
      · intro c hc
        exact h2f c (h4sub c hc)

theorem jsWords_good {s : Str} : ∀ w ∈ jsWords s, w ≠ [] ∧ ∀ c ∈ w, wsChar c = false :=
  fun w hw => jsWordsAux_words_ok (by simp) w hw

theorem jsWords_char_subset {s : Str} {w : Str} (hw : w ∈ jsWords s) {c : Char}
    (hc : c ∈ w) : c ∈ s := by
  rcases @jsWordsAux_char_subset _ [] w hw c hc with h | h
  · cases h
  · exact h

/-- Shared shape facts about `cleanCounterparty`'s output: no newline, trimmed,
homograph-fold fixed, never ends in whitespace. -/
theorem clean_props (x : Str) :
    '\n' ∉ cleanCounterparty x ∧ trimL (cleanCounterparty x) = cleanCounterparty x ∧
    (∀ c ∈ cleanCounterparty x, charFold c = c) ∧
    endsWithWs (cleanCounterparty x) = false := by
  rcases clean_struct x with h | ⟨s4, h4ne, h4t, h4nl, h4f, h4j, heq⟩
  · rw [h]
    exact ⟨by simp, rfl, by simp, rfl⟩
  · rw [heq]
    unfold finalizeName
    dsimp only
    by_cases horg : orgForms.any (fun f => containsSub (upperL s4) f) = true
    · rw [if_pos horg]
      exact ⟨h4nl, h4t, h4f, endsWithWs_of_not_junk h4j⟩
    · rw [if_neg horg]
      have hwne : jsWords s4 ≠ [] :=
        jsWordsAux_ne_nil (Or.inr (exists_nonws_of_trimmed h4t h4ne))
      have hfold : ∀ (ws' : List Str), (∀ w ∈ ws', w ∈ jsWords s4) →
          ∀ c ∈ joinSpace ws', charFold c = c := by
        intro ws' hws' c hc
        rcases joinWith_char_subset hc with rfl | ⟨w, hw, hcw⟩
        · decide
        · exact h4f c (jsWords_char_subset (hws' w hw) hcw)
      by_cases hlen : (jsWords s4).length ≤ 3
      · rw [if_pos hlen]
        obtain ⟨hnl, ht, hw, _⟩ := joinSpace_props hwne jsWords_good
        exact ⟨hnl, ht, hfold _ (fun w hw => hw), hw⟩
      · rw [if_neg hlen]
        have htkne := take3_ne_nil hwne
        have htgood : ∀ w ∈ (jsWords s4).take 3, w ≠ [] ∧ ∀ c ∈ w, wsChar c = false :=
          fun w hw => jsWords_good w (List.take_subset _ _ hw)
        obtain ⟨hnl, ht, hw, _⟩ := joinSpace_props htkne htgood
        exact ⟨hnl, ht, hfold _ (fun w hw => List.take_subset _ _ hw), hw⟩

-- ========== Conditional idempotence of cleanCounterparty ==========

theorem clean_eq_of_stages {y : Str} (hy0 : y ≠ [])
    (e1 : trimL y = y) (e2 : engToRusFold y = y) (e3 : selectLine y = y)
    (e4 : cutAtStops y = y) (e5 : stripTrailingJunk y = y) (e6 : finalizeName y = y) :
    cleanCounterparty y = y := by
  unfold cleanCounterparty
  dsimp only
  rw [e1, if_neg hy0, e2, e3, e4, e5, if_neg hy0, e6]

theorem finalizeName_clean_fixed (x : Str) (hy0 : cleanCounterparty x ≠ []) :
    finalizeName (cleanCounterparty x) = cleanCounterparty x := by
  rcases clean_struct x with h | ⟨s4, h4ne, h4t, h4nl, h4f, h4j, heq⟩
  · exact absurd h hy0
  · by_cases horg : orgForms.any (fun f => containsSub (upperL s4) f) = true
    · have hy : cleanCounterparty x = s4 := by
        rw [heq]
        unfold finalizeName
        dsimp only
        rw [if_pos horg]
      rw [hy]
      unfold finalizeName
      dsimp only
      rw [if_pos horg]
    · have hws0ne : jsWords s4 ≠ [] :=
        jsWordsAux_ne_nil (Or.inr (exists_nonws_of_trimmed h4t h4ne))
      have hy : cleanCounterparty x = joinSpace ((jsWords s4).take 3) := by
        rw [heq]
        unfold finalizeName
        dsimp only
        rw [if_neg horg]
        by_cases hlen : (jsWords s4).length ≤ 3
        · rw [if_pos hlen, List.take_of_length_le hlen]
        · rw [if_neg hlen]
      have htk_good : ∀ w ∈ (jsWords s4).take 3, w ≠ [] ∧ ∀ c ∈ w, wsChar c = false :=
        fun w hw => jsWords_good w (List.take_subset _ _ hw)
      have htkne := take3_ne_nil hws0ne
      have hjw : jsWords (joinSpace ((jsWords s4).take 3)) = (jsWords s4).take 3 :=
        jsWords_joinSpace htkne (fun w hw => (htk_good w hw).1) (fun w hw => (htk_good w hw).2)
      rw [hy]
      unfold finalizeName
      dsimp only
      by_cases horg2 :
          orgForms.any (fun f => containsSub (upperL (joinSpace ((jsWords s4).take 3))) f) = true
      · rw [if_pos horg2]
      · rw [if_neg horg2, hjw]
        have hlen3 : ((jsWords s4).take 3).length ≤ 3 := by
          rw [List.length_take]
          omega
        rw [if_pos hlen3]

theorem clean_idem_of (x : Str)
    (hstop : ∀ ph ∈ stopPhrases, ∀ i, i < (upperL (cleanCounterparty x)).length → 0 < i →
      ph.isPrefixOf ((upperL (cleanCounterparty x)).drop i) = false)
    (hjunk : endsWithJunk (cleanCounterparty x) = false) :
    cleanCounterparty (cleanCounterparty x) = cleanCounterparty x := by
  by_cases hy0 : cleanCounterparty x = []
  · rw [hy0]
    rfl
  · obtain ⟨hynl, hyt, hyf, _⟩ := clean_props x
    exact clean_eq_of_stages hy0 hyt (engToRusFold_eq_self hyf)
      (selectLine_eq_self hynl hyt hy0) (cutAtStops_eq_self_of_no_pos hstop)
      (stripTrailingJunk_eq_self hjunk hyt) (finalizeName_clean_fixed x hy0)

-- ========== getDirection lemmas (claim C2) ==========

theorem directionByKeywords_iff (article : Str) :
    directionByKeywords article = Direction.inflow ↔
      (containsSub (lowerL article) "поступлени".data = true ∨
       containsSub (lowerL article) "доход".data = true ∨
       containsSub (lowerL article) "вклад".data = true ∨
       containsSub (lowerL article) "получени".data = true) := by
  unfold directionByKeywords
  dsimp only
  by_cases h : (containsSub (lowerL article) "поступлени".data ||
      containsSub (lowerL article) "доход".data ||
      containsSub (lowerL article) "вклад".data ||
      containsSub (lowerL article) "получени".data) = true
  · rw [if_pos h]
    simp only [Bool.or_eq_true] at h
    simp [h]
    tauto
  · rw [if_neg h]
    simp only [Bool.or_eq_true] at h
    push_neg at h
    simp only [Bool.not_eq_true] at h
    constructor
    · intro hh
      cases hh
    · intro hh
      rcases hh with h1 | h1 | h1 | h1 <;> simp_all

theorem getDirection_found {article : Str} {articlesRef : List ArticleDDS} {a : ArticleDDS}
    (hne : article ≠ []) (hfind : findArticleMatch article articlesRef = some a) :
    getDirection article articlesRef =
      (if containsSub (lowerL a.group) "поступление".data then Direction.inflow
       else if containsSub (lowerL a.group) "выбытие".data then Direction.outflow
       else directionByKeywords article) := by
  unfold getDirection
  rw [if_neg hne, hfind]

theorem getDirection_not_found {article : Str} {articlesRef : List ArticleDDS}
    (hne : article ≠ []) (hfind : findArticleMatch article articlesRef = none) :
    getDirection article articlesRef = directionByKeywords article := by
  unfold getDirection
  rw [if_neg hne, hfind]

/-- C2 (amended): `getDirection` returns `out` on an empty article; with a non-empty
article, the **first** dictionary entry whose name matches case/trim-insensitively
decides: group containing "поступление" gives `in`, otherwise group containing
"выбытие" gives `out`, otherwise (and when no entry matches) the keyword heuristic on
the article text decides, yielding `in` exactly when the lowercased article contains
"поступлени", "доход", "вклад" or "получени"; in particular "Аренда" with an empty
dictionary yields `out`. -/
theorem getDirection_spec (article : Str) (articlesRef : List ArticleDDS) :
    (getDirection [] articlesRef = Direction.outflow) ∧
    (directionByKeywords article = Direction.inflow ↔
      (containsSub (lowerL article) "поступлени".data = true ∨
       containsSub (lowerL article) "доход".data = true ∨
       containsSub (lowerL article) "вклад".data = true ∨
       containsSub (lowerL article) "получени".data = true)) ∧
    (∀ a, article ≠ [] → findArticleMatch article articlesRef = some a →
      (containsSub (lowerL a.group) "поступление".data = true →
        getDirection article articlesRef = Direction.inflow) ∧
      (containsSub (lowerL a.group) "поступление".data = false →
        containsSub (lowerL a.group) "выбытие".data = true →
        getDirection article articlesRef = Direction.outflow) ∧
      (containsSub (lowerL a.group) "поступление".data = false →
        containsSub (lowerL a.group) "выбытие".data = false →
        getDirection article articlesRef = directionByKeywords article)) ∧
    (article ≠ [] → findArticleMatch article articlesRef = none →
      getDirection article articlesRef = directionByKeywords article) ∧
    (getDirection "Аренда".data [] = Direction.outflow) := by
  refine ⟨by unfold getDirection; rw [if_pos rfl], directionByKeywords_iff article, ?_, ?_, by decide⟩
  · intro a hne hfind
    refine ⟨?_, ?_, ?_⟩
    · intro hg
      rw [getDirection_found hne hfind, if_pos hg]
    · intro hg1 hg2
      rw [getDirection_found hne hfind, if_neg (by simp [hg1]), if_pos hg2]
    · intro hg1 hg2
      rw [getDirection_found hne hfind, if_neg (by simp [hg1]), if_neg (by simp [hg2])]
  · intro hne hfind
    exact getDirection_not_found hne hfind

/-- C2 counterexample: the claim as stated fails (i) when a matching entry's group
contains both "поступление" and "выбытие" — the code answers `in`, the claim demands
`out` — and (ii) when an earlier matching entry with an undecidable group shadows a
later one whose group contains "поступление" — the code answers `out` via the keyword
heuristic, the claim demands `in`. -/
theorem getDirection_claim_counterexample :
    (getDirection "х".data [⟨"х".data, "поступление и выбытие".data, [], []⟩] =
        Direction.inflow ∧
      containsSub (lowerL "поступление и выбытие".data) "выбытие".data = true ∧
      findArticleMatch "х".data [⟨"х".data, "поступление и выбытие".data, [], []⟩] =
        some ⟨"х".data, "поступление и выбытие".data, [], []⟩) ∧
    (getDirection "аренда".data
        [⟨"аренда".data, [], [], []⟩, ⟨"аренда".data, "поступление".data, [], []⟩] =
        Direction.outflow ∧
      ∃ a ∈ [⟨"аренда".data, [], [], []⟩,
        (⟨"аренда".data, "поступление".data, [], []⟩ : ArticleDDS)],
        trimL (lowerL a.name) = trimL (lowerL "аренда".data) ∧
        containsSub (lowerL a.group) "поступление".data = true) := by
  decide

theorem getDirection_spec_witness :
    findArticleMatch "х".data [⟨"х".data, "выбытие".data, [], []⟩] =
      some ⟨"х".data, "выбытие".data, [], []⟩ ∧
    getDirection "х".data [⟨"х".data, "выбытие".data, [], []⟩] = Direction.outflow ∧
    getDirection "поступление от клиента".data [] = Direction.inflow := by
  refine ⟨by decide, ?_, ?_⟩
  · exact ((getDirection_spec "х".data [⟨"х".data, "выбытие".data, [], []⟩]).2.2.1
      ⟨"х".data, "выбытие".data, [], []⟩ (by decide) (by decide)).2.1 (by decide) (by decide)
  · rw [(getDirection_spec "поступление от клиента".data []).2.2.2.1 (by decide) (by decide)]
    exact (directionByKeywords_iff _).mpr (Or.inl (by decide))

-- ========== Extractor loop lemmas (claims C3, C7) ==========

theorem emitLoop_mem {ids : Nat → Str} {mkRow : List CellValue → Option Transaction} :
    ∀ {k : Nat} {rows : List (List CellValue)} {t : Transaction},
      t ∈ emitLoop ids mkRow k rows →
      ∃ row ∈ rows, ∃ t0, mkRow row = some t0 ∧ ∃ k2, t = { t0 with id := ids k2 } := by
  intro k rows
  induction rows generalizing k with
  | nil =>
    intro t ht
    rw [emitLoop] at ht
    cases ht
  | cons row rest ih =>
    intro t ht
    rw [emitLoop] at ht
    rcases hmk : mkRow row with _ | t0
    · rw [hmk] at ht
      rcases ih ht with ⟨row2, hrow2, t02, hmk2, k2, heq⟩
      exact ⟨row2, List.mem_cons_of_mem _ hrow2, t02, hmk2, k2, heq⟩
    · rw [hmk] at ht
      rcases List.mem_cons.mp ht with rfl | ht2
      · exact ⟨row, List.mem_cons_self _ _, t0, hmk, k, rfl⟩
      · rcases ih ht2 with ⟨row2, hrow2, t02, hmk2, k2, heq⟩
        exact ⟨row2, List.mem_cons_of_mem _ hrow2, t02, hmk2, k2, heq⟩

theorem parseAmount_nonneg (v : Option CellValue) : 0 ≤ parseAmount v := by
  unfold parseAmount
  rcases v with _ | ⟨s⟩ | ⟨q⟩
  · exact le_refl 0
  all_goals dsimp only
  · split
    · exact le_refl 0
    · split
      · exact le_refl 0
      · exact abs_nonneg _
  · split
    · exact le_refl 0
    · exact abs_nonneg _

theorem colAmount_nonneg (row : List CellValue) (col : Option Nat) :
    0 ≤ colAmount row col := by
  unfold colAmount
  rcases col with _ | c
  · exact le_refl 0
  · exact parseAmount_nonneg _

theorem parseCashJournal_amount_pos {dateOf : Option CellValue → Option Int}
    {ids : Nat → Str} {data : Grid} {sheetName sourceName : Str}
    {articlesRef : List ArticleDDS} {headerRowIndex : Nat} {t : Transaction}
    (ht : t ∈ parseCashJournal dateOf ids data sheetName sourceName articlesRef headerRowIndex) :
    0 < t.amount := by
  unfold parseCashJournal at ht
  split at ht
  · cases ht
  · rcases emitLoop_mem ht with ⟨row, _, t0, hmk, k2, rfl⟩
    dsimp only at hmk
    split at hmk
    · cases hmk
    · split at hmk
      · cases hmk
      · next hamt =>
        injection hmk with h2
        subst h2
        dsimp only
        have hnn := colAmount_nonneg row (findColumnIndex
          ((data.getD headerRowIndex []).map (fun h => cellToStr (some h)))
          (["сумма в рублях", "сумма"].map String.data))
        rcases lt_or_eq_of_le hnn with h | h
        · exact h
        · exact absurd h.symm hamt

theorem parseBankJournal_amount_pos {dateOf : Option CellValue → Option Int}
    {ids : Nat → Str} {data : Grid} {sheetName sourceName : Str}
    {articlesRef : List ArticleDDS} {headerRowIndex : Nat} {t : Transaction}
    (ht : t ∈ parseBankJournal dateOf ids data sheetName sourceName articlesRef headerRowIndex) :
    0 < t.amount := by
  unfold parseBankJournal at ht
  split at ht
  · cases ht
  · rcases emitLoop_mem ht with ⟨row, _, t0, hmk, k2, rfl⟩
    dsimp only at hmk
    split at hmk
    · cases hmk
    · split at hmk
      · cases hmk
      · next hamt =>
        injection hmk with h2
        subst h2
        dsimp only
        have hnn := colAmount_nonneg row (findColumnIndex
          ((data.getD headerRowIndex []).map (fun h => cellToStr (some h)))
          (["сумма для ддс", "сумма ддс", "сумма"].map String.data))
        rcases lt_or_eq_of_le hnn with h | h
        · exact h
        · exact absurd h.symm hamt

theorem tryParseFallback_amount_pos {dateOf : Option CellValue → Option Int}
    {ids : Nat → Str} {data : Grid} {sheetName sourceName : Str}
    {articlesRef : List ArticleDDS} {headerRowIndex : Nat} {t : Transaction}
    (ht : t ∈ tryParseFallback dateOf ids data sheetName sourceName articlesRef headerRowIndex) :
    0 < t.amount := by
  unfold tryParseFallback at ht
  split at ht
  · cases ht
  · revert ht
    dsimp only
    intro ht
    split at ht
    · cases ht
    · rcases emitLoop_mem ht with ⟨row, _, t0, hmk, k2, rfl⟩
      split at hmk
      · cases hmk
      · split at hmk
        · cases hmk
        · next hamt =>
          injection hmk with h2
          subst h2
          dsimp only
          have hnn := colAmount_nonneg row (findColumnIndex
            ((data.getD headerRowIndex []).map (fun h => cellToStr (some h)))
            (["сумма", "amount", "итого"].map String.data))
          rcases lt_or_eq_of_le hnn with h | h
          · exact h
          · exact absurd h.symm hamt

/-- C3: every transaction produced by the cash, bank or fallback extractor has a
strictly positive amount (`parseAmount` is non-negative by construction and each row
loop skips rows whose parsed amount is exactly zero), for any date-parsing host
function and id supply. -/
theorem extraction_amount_positive :
    (∀ v, 0 ≤ parseAmount v) ∧
    (∀ (dateOf : Option CellValue → Option Int) (ids : Nat → Str) (data : Grid)
      (sheetName sourceName : Str) (articlesRef : List ArticleDDS) (headerRowIndex : Nat)
      (t : Transaction),
      t ∈ parseCashJournal dateOf ids data sheetName sourceName articlesRef headerRowIndex →
      0 < t.amount) ∧
    (∀ (dateOf : Option CellValue → Option Int) (ids : Nat → Str) (data : Grid)
      (sheetName sourceName : Str) (articlesRef : List ArticleDDS) (headerRowIndex : Nat)
      (t : Transaction),
      t ∈ parseBankJournal dateOf ids data sheetName sourceName articlesRef headerRowIndex →
      0 < t.amount) ∧
    (∀ (dateOf : Option CellValue → Option Int) (ids : Nat → Str) (data : Grid)
      (sheetName sourceName : Str) (articlesRef : List ArticleDDS) (headerRowIndex : Nat)
      (t : Transaction),
      t ∈ tryParseFallback dateOf ids data sheetName sourceName articlesRef headerRowIndex →
      0 < t.amount) :=
  ⟨parseAmount_nonneg,
   fun _ _ _ _ _ _ _ _ ht => parseCashJournal_amount_pos ht,
   fun _ _ _ _ _ _ _ _ ht => parseBankJournal_amount_pos ht,
   fun _ _ _ _ _ _ _ _ ht => tryParseFallback_amount_pos ht⟩

theorem extraction_amount_positive_witness :
    (0 : ℚ) ≤ parseAmount (some (.str "abc".data)) ∧
    (sampleCashTx ∈ parseCashJournal noDate nilIds sampleCashGrid "Касса".data "f".data [] 0 ∧
      0 < sampleCashTx.amount) ∧
    (sampleBankTx ∈ parseBankJournal noDate nilIds sampleBankGrid "РС".data "f".data [] 0 ∧
      0 < sampleBankTx.amount) ∧
    (sampleFallbackTx ∈
        tryParseFallback noDate nilIds sampleFallbackGrid "Лист1".data "f".data [] 0 ∧
      0 < sampleFallbackTx.amount) := by
  refine ⟨extraction_amount_positive.1 _, ⟨by decide, ?_⟩, ⟨by decide, ?_⟩, ⟨by decide, ?_⟩⟩
  · exact extraction_amount_positive.2.1 noDate nilIds sampleCashGrid "Касса".data "f".data [] 0
      sampleCashTx (by decide)
  · exact extraction_amount_positive.2.2.1 noDate nilIds sampleBankGrid "РС".data "f".data [] 0
      sampleBankTx (by decide)
  · exact extraction_amount_positive.2.2.2 noDate nilIds sampleFallbackGrid "Лист1".data
      "f".data [] 0 sampleFallbackTx (by decide)

-- ========== Bank-journal counterparty sourcing (claim C7) ==========

/-- C7: every transaction extracted by `parseBankJournal` takes its counterparty from
the "Аналитика Дт" column of its row when its direction is `out`, and from the
"Аналитика Кт" column when it is `in` (the empty string when the column is absent). -/
theorem bank_counterparty_from_analytics
    (dateOf : Option CellValue → Option Int) (ids : Nat → Str) (data : Grid)
    (sheetName sourceName : Str) (articlesRef : List ArticleDDS) (headerRowIndex : Nat) :
    ∀ t ∈ parseBankJournal dateOf ids data sheetName sourceName articlesRef headerRowIndex,
      ∃ row ∈ data.drop (headerRowIndex + 1),
        t.counterparty =
          (if t.direction = Direction.outflow
           then colStr row (findColumnIndex ((data.getD headerRowIndex []).map
             (fun h => cellToStr (some h))) (["аналитика дт"].map String.data))
           else colStr row (findColumnIndex ((data.getD headerRowIndex []).map
             (fun h => cellToStr (some h))) (["аналитика кт"].map String.data))) := by
  intro t ht
  unfold parseBankJournal at ht
  split at ht
  · cases ht
  · rcases emitLoop_mem ht with ⟨row, hrow, t0, hmk, k2, rfl⟩
    refine ⟨row, hrow, ?_⟩
    dsimp only at hmk
    split at hmk
    · cases hmk
    · split at hmk
      · cases hmk
      · injection hmk with h2
        subst h2
        rfl

theorem bank_counterparty_from_analytics_witness :
    (sampleBankTx ∈ parseBankJournal noDate nilIds sampleBankGrid "РС".data "f".data [] 0) ∧
    (∃ row ∈ sampleBankGrid.drop 1,
      sampleBankTx.counterparty =
        (if sampleBankTx.direction = Direction.outflow
         then colStr row (findColumnIndex ((sampleBankGrid.getD 0 []).map
           (fun h => cellToStr (some h))) (["аналитика дт"].map String.data))
         else colStr row (findColumnIndex ((sampleBankGrid.getD 0 []).map
           (fun h => cellToStr (some h))) (["аналитика кт"].map String.data)))) :=
  ⟨by decide,
   bank_counterparty_from_analytics noDate nilIds sampleBankGrid "РС".data "f".data [] 0
     sampleBankTx (by decide)⟩

-- ========== Association-list lemmas (claim C4) ==========

theorem alookup_append (m1 m2 : List (Str × Str)) (k : Str) :
    alookup (m1 ++ m2) k = (alookup m1 k).orElse (fun _ => alookup m2 k) := by
  induction m1 with
  | nil => rfl
  | cons p rest ih =>
    rcases p with ⟨k1, v1⟩
    have lhs : alookup ((k1, v1) :: (rest ++ m2)) k =
        if k1 = k then some v1 else alookup (rest ++ m2) k := rfl
    have rhs : alookup ((k1, v1) :: rest) k =
        if k1 = k then some v1 else alookup rest k := rfl
    rw [List.cons_append, lhs, rhs]
    by_cases h : k1 = k
    · rw [if_pos h, if_pos h]
      rfl
    · rw [if_neg h, if_neg h]
      exact ih

theorem alookup_insertIfAbsent (m : List (Str × Str)) (key v k : Str) :
    alookup (insertIfAbsent m key v) k =
      (alookup m k).orElse (fun _ => if key = k then some v else none) := by
  unfold insertIfAbsent
  split
  · next hsome =>
    rcases h2 : alookup m k with _ | v2
    · by_cases hk : key = k
      · subst hk
        rw [h2] at hsome
        cases hsome
      · rw [if_neg hk]
        rfl
    · rfl
  · rw [alookup_append]
    rcases h2 : alookup m k with _ | v2
    · unfold alookup
      rfl
    · rfl

/-- `if key ≠ [] then insertIfAbsent m key v else m`, as used per derived key. -/
theorem alookup_condInsert (m : List (Str × Str)) (key v k : Str) :
    alookup (if key ≠ [] then insertIfAbsent m key v else m) k =
      (alookup m k).orElse (fun _ => if key ≠ [] ∧ key = k then some v else none) := by
  by_cases hne : key ≠ []
  · rw [if_pos hne, alookup_insertIfAbsent]
    rcases h2 : alookup m k with _ | v2
    · by_cases hk : key = k
      · rw [if_pos hk, if_pos ⟨hne, hk⟩]
      · rw [if_neg hk, if_neg (fun hc => hk hc.2)]
    · rfl
  · rw [if_neg hne]
    rcases h2 : alookup m k with _ | v2
    · have : ¬ (key ≠ [] ∧ key = k) := fun hc => hne hc.1
      rw [if_neg this]
      rfl
    · rfl

theorem orElse_chain3 (c1 c2 c3 : Prop) [Decidable c1] [Decidable c2] [Decidable c3]
    (v : Str) :
    ((((none : Option Str).orElse (fun _ => if c1 then some v else none)).orElse
      (fun _ => if c2 then some v else none)).orElse
        (fun _ => if c3 then some v else none)) =
      (if c1 ∨ c2 ∨ c3 then some v else none) := by
  by_cases h1 : c1 <;> by_cases h2 : c2 <;> by_cases h3 : c3 <;>
    simp [Option.orElse, h1, h2, h3]

theorem addEntry_exact_lookup (d : CpDict) (disp k : Str) :
    alookup (addCounterpartyEntry d disp).exactMap k =
      (alookup d.exactMap k).orElse
        (fun _ => if (entryExactKeys disp).contains k then some disp else none) := by
  unfold addCounterpartyEntry entryExactKeys
  dsimp only
  rw [alookup_condInsert, alookup_condInsert, alookup_condInsert]
  generalize normalizeCounterpartyForMatch (cleanCounterparty disp) = n
  generalize stripOrgPrefixes n = st
  generalize stripOrgTokens n = co
  rcases h0 : alookup d.exactMap k with _ | v0
  · rw [orElse_chain3]
    have hiff : (n ≠ [] ∧ n = k) ∨ (st ≠ [] ∧ st = k) ∨ (co ≠ [] ∧ co = k) ↔
        (([n, st, co].filter (fun x => x ≠ [])).contains k = true) := by
      rw [List.elem_iff, List.mem_filter]
      simp only [List.mem_cons, List.mem_singleton, List.not_mem_nil, decide_eq_true_eq, ne_eq]
      constructor
      · rintro (⟨hne, rfl⟩ | ⟨hne, rfl⟩ | ⟨hne, rfl⟩) <;> simp_all
      · rintro ⟨rfl | rfl | (rfl | hfalse), hne⟩
        · exact Or.inl ⟨hne, rfl⟩
        · exact Or.inr (Or.inl ⟨hne, rfl⟩)
        · exact Or.inr (Or.inr ⟨hne, rfl⟩)
        · cases hfalse
    by_cases hc : (n ≠ [] ∧ n = k) ∨ (st ≠ [] ∧ st = k) ∨ (co ≠ [] ∧ co = k)
    · rw [if_pos hc, if_pos (hiff.mp hc)]
      rfl
    · rw [if_neg hc, if_neg (fun hct => hc (hiff.mpr hct))]
      rfl
  · rfl

theorem addEntry_token_lookup (d : CpDict) (disp k : Str) :
    alookup (addCounterpartyEntry d disp).tokenMap k =
      (alookup d.tokenMap k).orElse
        (fun _ => if tokenKeyMatches k disp then some disp else none) := by
  have hiff : tokenKeyMatches k disp = true ↔
      (entryTokenKey disp ≠ [] ∧ entryTokenKey disp = k) := by
    unfold tokenKeyMatches
    simp only [Bool.and_eq_true, decide_eq_true_eq, Bool.not_eq_true', List.isEmpty_eq_false,
      ne_eq]
    constructor
    · rintro ⟨heq, hne⟩
      exact ⟨heq ▸ hne, heq⟩
    · rintro ⟨hne, rfl⟩
      exact ⟨rfl, hne⟩
  have hkey : (addCounterpartyEntry d disp).tokenMap =
      (if entryTokenKey disp ≠ [] then insertIfAbsent d.tokenMap (entryTokenKey disp) disp
       else d.tokenMap) := by
    unfold addCounterpartyEntry entryTokenKey
    dsimp only
  rw [hkey, alookup_condInsert]
  rcases h0 : alookup d.tokenMap k with _ | v0
  · by_cases hc : tokenKeyMatches k disp = true
    · rw [if_pos (hiff.mp hc), if_pos hc]
    · have hnc : ¬ (entryTokenKey disp ≠ [] ∧ entryTokenKey disp = k) :=
        fun hcc => hc (hiff.mpr hcc)
      rw [if_neg hnc, if_neg hc]
  · show some v0 = some v0
    rfl

theorem build_fold_exact (ds : List Str) (d0 : CpDict) (k : Str) :
    alookup ((ds.foldl addCounterpartyEntry d0).exactMap) k =
      (alookup d0.exactMap k).orElse
        (fun _ => ds.find? (fun disp => (entryExactKeys disp).contains k)) := by
  induction ds generalizing d0 with
  | nil =>
    rw [List.foldl_nil]
    simp only [List.find?_nil]
    rcases h0 : alookup d0.exactMap k with _ | v0 <;> rfl
  | cons disp rest ih =>
    rw [List.foldl_cons, ih, addEntry_exact_lookup, List.find?_cons]
    rcases h0 : alookup d0.exactMap k with _ | v0
    · by_cases hc : (entryExactKeys disp).contains k = true
      · rw [if_pos hc, hc]
        rfl
      · rw [if_neg hc]
        rw [Bool.not_eq_true] at hc
        rw [hc]
        rfl
    · rfl

theorem build_fold_token (ds : List Str) (d0 : CpDict) (k : Str) :
    alookup ((ds.foldl addCounterpartyEntry d0).tokenMap) k =
      (alookup d0.tokenMap k).orElse
        (fun _ => ds.find? (fun disp => tokenKeyMatches k disp)) := by
  induction ds generalizing d0 with
  | nil =>
    rw [List.foldl_nil]
    simp only [List.find?_nil]
    rcases h0 : alookup d0.tokenMap k with _ | v0 <;> rfl
  | cons disp rest ih =>
    rw [List.foldl_cons, ih, addEntry_token_lookup, List.find?_cons]
    rcases h0 : alookup d0.tokenMap k with _ | v0
    · by_cases hc : tokenKeyMatches k disp = true
      · rw [if_pos hc, hc]
        rfl
      · rw [if_neg hc]
        rw [Bool.not_eq_true] at hc
        rw [hc]
        rfl
    · show some v0 = some v0
      rfl

theorem build_fold_hasRefs (ds : List Str) (d0 : CpDict) :
    (ds.foldl addCounterpartyEntry d0).hasReferences =
      (d0.hasReferences || ! ds.isEmpty) := by
  induction ds generalizing d0 with
  | nil => simp
  | cons disp rest ih =>
    rw [List.foldl_cons, ih]
    have hone : (addCounterpartyEntry d0 disp).hasReferences = true := rfl
    rw [hone]
    cases d0.hasReferences <;> simp

theorem readyDisplayNames_withoutTransactions (sources : List DataSource) :
    readyDisplayNames (sources.map withoutTransactions) = readyDisplayNames sources := by
  induction sources with
  | nil => rfl
  | cons s rest ih =>
    unfold readyDisplayNames at *
    rw [List.map_cons]
    rw [List.filter_cons, List.filter_cons]
    have hst : (withoutTransactions s).status = s.status := rfl
    rw [hst]
    by_cases h : (s.status == SourceStatus.ready) = true
    · rw [if_pos h, if_pos h]
      rw [List.flatMap_cons, List.flatMap_cons]
      have hcp : (withoutTransactions s).counterparties = s.counterparties := rfl
      rw [hcp, List.filter_append, List.filter_append]
      congr 1
    · rw [if_neg h, if_neg h]
      exact ih

/-- C4: each derived exact-map key (normalised / prefix-stripped / org-token-stripped)
and each token-signature key maps to the display name of the **first** `ready`-source
dictionary entry that produces it (later entries with the same key are ignored);
`hasReferences` records whether any entry exists; and the dictionary does not depend
on the sources' transaction lists, so resolution results are independent of how many
or in what order transactions are processed. -/
theorem dictionary_first_write_wins (sources : List DataSource) (k : Str) :
    alookup (buildCounterpartyDictionary sources).exactMap k =
      (readyDisplayNames sources).find? (fun d => (entryExactKeys d).contains k) ∧
    alookup (buildCounterpartyDictionary sources).tokenMap k =
      (readyDisplayNames sources).find? (fun d => tokenKeyMatches k d) ∧
    (buildCounterpartyDictionary sources).hasReferences =
      ! (readyDisplayNames sources).isEmpty ∧
    buildCounterpartyDictionary (sources.map withoutTransactions) =
      buildCounterpartyDictionary sources := by
  refine ⟨?_, ?_, ?_, ?_⟩
  · unfold buildCounterpartyDictionary
    rw [build_fold_exact]
    rfl
  · unfold buildCounterpartyDictionary
    rw [build_fold_token]
    rfl
  · unfold buildCounterpartyDictionary
    rw [build_fold_hasRefs]
    rfl
  · unfold buildCounterpartyDictionary
    rw [readyDisplayNames_withoutTransactions]

-- ========== Resolution pass (claim C9) ==========

/-- C9: `getAllTransactions` returns exactly the transactions of `ready` sources whose
sheet name is selected, each with every field identical to the extracted original and
only `counterparty` replaced by the resolver's output. -/
theorem getAllTransactions_spec (sources : List DataSource) (t : Transaction) :
    t ∈ getAllTransactions sources ↔
      ∃ s ∈ sources, s.status = SourceStatus.ready ∧
        ∃ t0 ∈ s.transactions, (getSelectedSheetNames sources).contains t0.sheet = true ∧
          t = { t0 with counterparty :=
            resolveCounterpartyName t0.counterparty (buildCounterpartyDictionary sources) } := by
  simp only [getAllTransactions, List.mem_flatMap, List.mem_filter, List.mem_map,
    beq_iff_eq]
  constructor
  · rintro ⟨s, ⟨hs, hst⟩, t0, ⟨ht0, hsel⟩, rfl⟩
    exact ⟨s, hs, hst, t0, ht0, hsel, rfl⟩
  · rintro ⟨s, hs, hst, t0, ht0, hsel, rfl⟩
    exact ⟨s, ⟨hs, hst⟩, t0, ⟨ht0, hsel⟩, rfl⟩

theorem getAllTransactions_spec_witness :
    ({ sampleTx with
        counterparty := resolveCounterpartyName sampleTx.counterparty
          (buildCounterpartyDictionary [sampleRefSource, sampleTxSource]) } ∈
      getAllTransactions [sampleRefSource, sampleTxSource]) ∧
    resolveCounterpartyName sampleTx.counterparty
        (buildCounterpartyDictionary [sampleRefSource, sampleTxSource]) =
      "ООО Ромашка".data :=
  ⟨(getAllTransactions_spec [sampleRefSource, sampleTxSource] _).mpr
    ⟨sampleTxSource, by decide, rfl, sampleTx, by decide, by decide, rfl⟩,
   by decide⟩

-- ========== Resolver lemmas (claim C1) ==========

theorem resolve_unfold (raw : Str) (dict : CpDict) :
    resolveCounterpartyName raw dict =
      (if trimL raw = [] then []
       else
         if strOr ((alookup dict.exactMap (txNormalized raw)).getD [])
             (strOr ((alookup dict.exactMap (txStripped raw)).getD [])
               ((alookup dict.exactMap (txCompact raw)).getD [])) ≠ [] then
           strOr ((alookup dict.exactMap (txNormalized raw)).getD [])
             (strOr ((alookup dict.exactMap (txStripped raw)).getD [])
               ((alookup dict.exactMap (txCompact raw)).getD []))
         else if txSignature raw ≠ [] ∧ (alookup dict.tokenMap (txSignature raw)).isSome then
           strOr ((alookup dict.tokenMap (txSignature raw)).getD [])
             (cleanCounterparty (trimL raw))
         else if dict.hasReferences = false then cleanCounterparty (trimL raw)
         else "нет в справочнике".data) := by
  unfold resolveCounterpartyName txSignature txCompact txStripped txNormalized
  rfl

theorem build_lookup_exact (sources : List DataSource) (k : Str) :
    alookup (buildCounterpartyDictionary sources).exactMap k =
      (readyDisplayNames sources).find? (fun d => (entryExactKeys d).contains k) := by
  unfold buildCounterpartyDictionary
  rw [build_fold_exact]
  rfl

theorem build_lookup_token (sources : List DataSource) (k : Str) :
    alookup (buildCounterpartyDictionary sources).tokenMap k =
      (readyDisplayNames sources).find? (fun d => tokenKeyMatches k d) := by
  unfold buildCounterpartyDictionary
  rw [build_fold_token]
  rfl

theorem build_hasRefs (sources : List DataSource) :
    (buildCounterpartyDictionary sources).hasReferences =
      ! (readyDisplayNames sources).isEmpty := by
  unfold buildCounterpartyDictionary
  rw [build_fold_hasRefs]
  rfl

theorem mem_readyDisplayNames_ne_nil {sources : List DataSource} {v : Str}
    (hv : v ∈ readyDisplayNames sources) : v ≠ [] := by
  unfold readyDisplayNames at hv
  have := (List.mem_filter.mp hv).2
  simpa using this

theorem exact_lookup_mem {sources : List DataSource} {k v : Str}
    (h : alookup (buildCounterpartyDictionary sources).exactMap k = some v) :
    v ∈ readyDisplayNames sources := by
  rw [build_lookup_exact] at h
  exact List.mem_of_find?_eq_some h

theorem token_lookup_mem {sources : List DataSource} {k v : Str}
    (h : alookup (buildCounterpartyDictionary sources).tokenMap k = some v) :
    v ∈ readyDisplayNames sources := by
  rw [build_lookup_token] at h
  exact List.mem_of_find?_eq_some h

theorem hasRefs_false_displays_nil {sources : List DataSource}
    (h : (buildCounterpartyDictionary sources).hasReferences = false) :
    readyDisplayNames sources = [] := by
  rw [build_hasRefs] at h
  simpa using h

-- ========== C1: resolver return-value characterisation ==========

theorem resolve_unfold_found (raw : Str) (dict : CpDict) :
    resolveCounterpartyName raw dict =
      (if trimL raw = [] then []
       else if foundVal raw dict ≠ [] then foundVal raw dict
       else if txSignature raw ≠ [] ∧ (alookup dict.tokenMap (txSignature raw)).isSome then
         strOr ((alookup dict.tokenMap (txSignature raw)).getD [])
           (cleanCounterparty (trimL raw))
       else if dict.hasReferences = false then cleanCounterparty (trimL raw)
       else "нет в справочнике".data) := by
  rw [resolve_unfold]
  rfl

theorem foundVal_eq_of_first {raw : Str} {dict : CpDict} {v : Str}
    (h1 : alookup dict.exactMap (txNormalized raw) = some v) (hv : v ≠ []) :
    foundVal raw dict = v := by
  unfold foundVal
  rw [h1]
  simp [strOr, hv]

theorem foundVal_eq_of_second {raw : Str} {dict : CpDict} {v : Str}
    (h1 : alookup dict.exactMap (txNormalized raw) = none)
    (h2 : alookup dict.exactMap (txStripped raw) = some v) (hv : v ≠ []) :
    foundVal raw dict = v := by
  unfold foundVal
  rw [h1, h2]
  simp [strOr, hv]

theorem foundVal_eq_of_third {raw : Str} {dict : CpDict} {v : Str}
    (h1 : alookup dict.exactMap (txNormalized raw) = none)
    (h2 : alookup dict.exactMap (txStripped raw) = none)
    (h3 : alookup dict.exactMap (txCompact raw) = some v) (hv : v ≠ []) :
    foundVal raw dict = v := by
  unfold foundVal
  rw [h1, h2, h3]
  simp [strOr, hv]

theorem foundVal_eq_nil {raw : Str} {dict : CpDict}
    (h1 : alookup dict.exactMap (txNormalized raw) = none)
    (h2 : alookup dict.exactMap (txStripped raw) = none)
    (h3 : alookup dict.exactMap (txCompact raw) = none) :
    foundVal raw dict = [] := by
  unfold foundVal
  rw [h1, h2, h3]
  rfl

/-- C1: amended characterisation of `resolveCounterpartyName` over a built dictionary
whose display names do not include the sentinel itself. (i) The result is the empty
string iff the raw input is empty/whitespace-only, or the dictionary has no
references and `cleanCounterparty` of the trimmed raw value is empty — so the
original "exactly when raw is empty/whitespace-only" is too strong. (ii) The result
is the sentinel "нет в справочнике" iff the trimmed raw value is non-empty and
either `hasReferences` is true with all four lookup levels missing
(`resolverMiss`), or `hasReferences` is false and the cleaned raw value happens to
equal the sentinel — so the original "only when hasReferences is true" is also too
strong. (iii) When `hasReferences` is false the resolver returns the cleaned
trimmed raw value (empty input aside). -/
theorem resolveCounterpartyName_spec (sources : List DataSource) (raw : Str)
    (hsent : "нет в справочнике".data ∉ readyDisplayNames sources) :
    (resolveCounterpartyName raw (buildCounterpartyDictionary sources) = [] ↔
      (trimL raw = [] ∨
        ((buildCounterpartyDictionary sources).hasReferences = false ∧
          cleanCounterparty (trimL raw) = []))) ∧
    (resolveCounterpartyName raw (buildCounterpartyDictionary sources) =
        "нет в справочнике".data ↔
      (trimL raw ≠ [] ∧
        (((buildCounterpartyDictionary sources).hasReferences = true ∧
            resolverMiss raw (buildCounterpartyDictionary sources) = true) ∨
          ((buildCounterpartyDictionary sources).hasReferences = false ∧
            cleanCounterparty (trimL raw) = "нет в справочнике".data)))) ∧
    ((buildCounterpartyDictionary sources).hasReferences = false →
      resolveCounterpartyName raw (buildCounterpartyDictionary sources) =
        (if trimL raw = [] then [] else cleanCounterparty (trimL raw))) := by
  rw [resolve_unfold_found]
  by_cases hraw : trimL raw = []
  · rw [if_pos hraw]
    refine ⟨⟨fun _ => Or.inl hraw, fun _ => rfl⟩, ?_, fun _ => by rw [if_pos hraw]⟩
    constructor
    · intro h
      exact absurd h.symm (by decide)
    · rintro ⟨hne, -⟩
      exact absurd hraw hne
  · rw [if_neg hraw]
    rcases e1 : alookup (buildCounterpartyDictionary sources).exactMap (txNormalized raw)
        with _ | v1
    · rcases e2 : alookup (buildCounterpartyDictionary sources).exactMap (txStripped raw)
          with _ | v2
      · rcases e3 : alookup (buildCounterpartyDictionary sources).exactMap (txCompact raw)
            with _ | v3
        · rw [foundVal_eq_nil e1 e2 e3, if_neg (fun h => h rfl)]
          by_cases hTok : txSignature raw ≠ [] ∧
              (alookup (buildCounterpartyDictionary sources).tokenMap (txSignature raw)).isSome
          · rw [if_pos hTok]
            rcases e4 : alookup (buildCounterpartyDictionary sources).tokenMap (txSignature raw)
                with _ | v4
            · exact absurd hTok.2 (by simp [e4])
            · have hv4 : v4 ∈ readyDisplayNames sources := token_lookup_mem e4
              have hv4ne : v4 ≠ [] := mem_readyDisplayNames_ne_nil hv4
              have hrefs : (buildCounterpartyDictionary sources).hasReferences = true := by
                rw [build_hasRefs]
                simp [List.isEmpty_eq_false.mpr (List.ne_nil_of_mem hv4)]
              have hval : strOr ((some v4).getD []) (cleanCounterparty (trimL raw)) = v4 := by
                simp [strOr, hv4ne]
              rw [hval]
              refine ⟨⟨fun h => absurd h hv4ne, ?_⟩, ⟨?_, ?_⟩,
                fun hf => by rw [hrefs] at hf; cases hf⟩
              · rintro (h | ⟨hf, -⟩)
                · exact absurd h hraw
                · rw [hrefs] at hf
                  cases hf
              · intro h
                rw [h] at hv4
                exact absurd hv4 hsent
              · rintro ⟨-, ⟨-, hmiss⟩ | ⟨hf, -⟩⟩
                · have hse : (txSignature raw).isEmpty = false :=
                    List.isEmpty_eq_false.mpr hTok.1
                  have : resolverMiss raw (buildCounterpartyDictionary sources) = false := by
                    unfold resolverMiss
                    rw [e1, e2, e3, e4, hse]
                    rfl
                  rw [this] at hmiss
                  cases hmiss
                · rw [hrefs] at hf
                  cases hf
          · rw [if_neg hTok]
            have hmiss : resolverMiss raw (buildCounterpartyDictionary sources) = true := by
              unfold resolverMiss
              rw [e1, e2, e3]
              by_cases hsig : txSignature raw = []
              · simp [hsig]
              · rcases e4 : alookup (buildCounterpartyDictionary sources).tokenMap
                    (txSignature raw) with _ | v4
                · simp
                · exact absurd ⟨hsig, by rw [e4]; rfl⟩ hTok
            by_cases hrefsF : (buildCounterpartyDictionary sources).hasReferences = false
            · rw [if_pos hrefsF]
              refine ⟨⟨fun h => Or.inr ⟨hrefsF, h⟩, ?_⟩, ⟨?_, ?_⟩, fun _ => by rw [if_neg hraw]⟩
              · rintro (h | ⟨-, h⟩)
                · exact absurd h hraw
                · exact h
              · intro h
                exact ⟨hraw, Or.inr ⟨hrefsF, h⟩⟩
              · rintro ⟨-, ⟨ht, -⟩ | ⟨-, h⟩⟩
                · rw [hrefsF] at ht
                  cases ht
                · exact h
            · have hrefsT : (buildCounterpartyDictionary sources).hasReferences = true := by
                cases h : (buildCounterpartyDictionary sources).hasReferences
                · exact absurd h hrefsF
                · rfl
              rw [if_neg hrefsF]
              refine ⟨⟨fun h => absurd h (by decide), ?_⟩, ⟨?_, ?_⟩,
                fun hf => absurd hf hrefsF⟩
              · rintro (h | ⟨hf, -⟩)
                · exact absurd h hraw
                · rw [hrefsT] at hf
                  cases hf
              · intro _
                exact ⟨hraw, Or.inl ⟨hrefsT, hmiss⟩⟩
              · intro _
                rfl
        · have hv3 : v3 ∈ readyDisplayNames sources := exact_lookup_mem e3
          have hv3ne : v3 ≠ [] := mem_readyDisplayNames_ne_nil hv3
          have hrefs : (buildCounterpartyDictionary sources).hasReferences = true := by
            rw [build_hasRefs]
            simp [List.isEmpty_eq_false.mpr (List.ne_nil_of_mem hv3)]
          rw [foundVal_eq_of_third e1 e2 e3 hv3ne, if_pos hv3ne]
          refine ⟨⟨fun h => absurd h hv3ne, ?_⟩, ⟨?_, ?_⟩,
            fun hf => by rw [hrefs] at hf; cases hf⟩
          · rintro (h | ⟨hf, -⟩)
            · exact absurd h hraw
            · rw [hrefs] at hf
              cases hf
          · intro h
            rw [h] at hv3
            exact absurd hv3 hsent
          · rintro ⟨-, ⟨-, hmiss⟩ | ⟨hf, -⟩⟩
            · have : resolverMiss raw (buildCounterpartyDictionary sources) = false := by
                unfold resolverMiss
                rw [e1, e2, e3]
                rfl
              rw [this] at hmiss
              cases hmiss
            · rw [hrefs] at hf
              cases hf
      · have hv2 : v2 ∈ readyDisplayNames sources := exact_lookup_mem e2
        have hv2ne : v2 ≠ [] := mem_readyDisplayNames_ne_nil hv2
        have hrefs : (buildCounterpartyDictionary sources).hasReferences = true := by
          rw [build_hasRefs]
          simp [List.isEmpty_eq_false.mpr (List.ne_nil_of_mem hv2)]
        rw [foundVal_eq_of_second e1 e2 hv2ne, if_pos hv2ne]
        refine ⟨⟨fun h => absurd h hv2ne, ?_⟩, ⟨?_, ?_⟩, fun hf => by rw [hrefs] at hf; cases hf⟩
        · rintro (h | ⟨hf, -⟩)
          · exact absurd h hraw
          · rw [hrefs] at hf
            cases hf
        · intro h
          rw [h] at hv2
          exact absurd hv2 hsent
        · rintro ⟨-, ⟨-, hmiss⟩ | ⟨hf, -⟩⟩
          · have : resolverMiss raw (buildCounterpartyDictionary sources) = false := by
              unfold resolverMiss
              rw [e1, e2]
              rfl
            rw [this] at hmiss
            cases hmiss
          · rw [hrefs] at hf
            cases hf
    · have hv1 : v1 ∈ readyDisplayNames sources := exact_lookup_mem e1
      have hv1ne : v1 ≠ [] := mem_readyDisplayNames_ne_nil hv1
      have hrefs : (buildCounterpartyDictionary sources).hasReferences = true := by
        rw [build_hasRefs]
        simp [List.isEmpty_eq_false.mpr (List.ne_nil_of_mem hv1)]
      rw [foundVal_eq_of_first e1 hv1ne, if_pos hv1ne]
      refine ⟨⟨fun h => absurd h hv1ne, ?_⟩, ⟨?_, ?_⟩, fun hf => by rw [hrefs] at hf; cases hf⟩
      · rintro (h | ⟨hf, -⟩)
        · exact absurd h hraw
        · rw [hrefs] at hf
          cases hf
      · intro h
        rw [h] at hv1
        exact absurd hv1 hsent
      · rintro ⟨-, ⟨-, hmiss⟩ | ⟨hf, -⟩⟩
        · have : resolverMiss raw (buildCounterpartyDictionary sources) = false := by
            unfold resolverMiss
            rw [e1]
            rfl
          rw [this] at hmiss
          cases hmiss
        · rw [hrefs] at hf
          cases hf

/-- C1 counterexamples to the original wording: the raw value `","` is neither
empty nor whitespace-only, yet the resolver returns the empty string over an
empty dictionary (its cleaned form is empty); and the raw value equal to the
sentinel is returned as the sentinel even though `hasReferences` is false. -/
theorem resolveCounterpartyName_claim_counterexample :
    (resolveCounterpartyName ",".data (buildCounterpartyDictionary []) = [] ∧
      trimL ",".data ≠ []) ∧
    (resolveCounterpartyName "нет в справочнике".data (buildCounterpartyDictionary []) =
        "нет в справочнике".data ∧
      (buildCounterpartyDictionary []).hasReferences = false) := by
  refine ⟨⟨?_, by decide⟩, ⟨?_, by decide⟩⟩
  · decide
  · decide

theorem resolveCounterpartyName_spec_witness :
    "нет в справочнике".data ∉ readyDisplayNames [sampleRefSource] ∧
    (resolveCounterpartyName "Ромашка ООО".data
        (buildCounterpartyDictionary [sampleRefSource]) = [] ↔
      (trimL "Ромашка ООО".data = [] ∨
        ((buildCounterpartyDictionary [sampleRefSource]).hasReferences = false ∧
          cleanCounterparty (trimL "Ромашка ООО".data) = []))) :=
  ⟨by decide,
    (resolveCounterpartyName_spec [sampleRefSource] "Ромашка ООО".data (by decide)).1⟩

-- ========== C5: conditional idempotence of cleanCounterparty ==========

/-- C5: amended idempotence. `cleanCounterparty` is idempotent on an input `x`
whenever its first pass leaves no uppercase stop-phrase occurrence at a strictly
positive position and no trailing junk character; unrestricted idempotence is
refuted by the counterexample below (the first pass can merge whitespace so that
a previously unmatched lowercase connective such as " от " becomes an uppercase
stop phrase " ОТ " on the second pass). -/
theorem cleanCounterparty_idem_spec (x : Str)
    (hstop : ∀ ph ∈ stopPhrases, ∀ i, i < (upperL (cleanCounterparty x)).length → 0 < i →
      ph.isPrefixOf ((upperL (cleanCounterparty x)).drop i) = false)
    (hjunk : endsWithJunk (cleanCounterparty x) = false) :
    cleanCounterparty (cleanCounterparty x) = cleanCounterparty x :=
  clean_idem_of x hstop hjunk

/-- C5 counterexample: `cleanCounterparty` is not idempotent in general. On
"Иванов\tот\tПетрова" the first pass joins the words by single spaces, after
which the second pass finds the stop phrase " ОТ " and truncates to "Иванов". -/
theorem cleanCounterparty_idem_counterexample :
    cleanCounterparty (cleanCounterparty "Иванов\tот\tПетрова".data) ≠
      cleanCounterparty "Иванов\tот\tПетрова".data := by
  decide

theorem cleanCounterparty_idem_spec_witness :
    endsWithJunk (cleanCounterparty "ООО Ромашка Договор №45 от 01.01.24".data) = false ∧
    cleanCounterparty (cleanCounterparty "ООО Ромашка Договор №45 от 01.01.24".data) =
      cleanCounterparty "ООО Ромашка Договор №45 от 01.01.24".data :=
  ⟨by decide, cleanCounterparty_idem_spec "ООО Ромашка Договор №45 от 01.01.24".data
    (by decide) (by decide)⟩

-- ========== C10: shape of cleanCounterparty output ==========

/-- C10: amended output invariant. The output of `cleanCounterparty` never
contains a newline and never ends with a whitespace character; the stronger
original claim that it also never ends with a comma, semicolon, period or hyphen
is refuted by the counterexample below (the trailing-junk strip runs before the
three-word cap, so the cap can re-expose a trailing comma). -/
theorem cleanCounterparty_output_spec (x : Str) :
    '\n' ∉ cleanCounterparty x ∧ endsWithWs (cleanCounterparty x) = false :=
  ⟨(clean_props x).1, (clean_props x).2.2.2⟩

/-- C10 counterexample: on "аа бб вв, гг" the three-word cap keeps "аа бб вв,"
whose last character is a comma, so the output can end with trailing junk. -/
theorem cleanCounterparty_output_counterexample :
    (cleanCounterparty "аа бб вв, гг".data).getLast? = some ',' := by
  decide

-- ========== C6: stop-phrase truncation semantics ==========

/-- C6: `cleanCounterparty` truncation semantics. (a) When no stop phrase occurs
at a strictly positive position of the uppercased string, the truncation stage
leaves the string unchanged — in particular a string that merely starts with a
stop phrase is never erased. (b) When the cut position is interior, it is
strictly positive, it is the first-occurrence index of some stop phrase, it is
minimal among all strictly positive stop-phrase first occurrences, and the stage
returns the trimmed prefix before it. (c) A string containing an organisational
form marker is returned whole by the final stage, with no three-word cap.
(d) Concretely, cleanCounterparty "ООО Ромашка Договор №45 от 01.01.24" =
"ООО Ромашка". -/
theorem cleanCounterparty_stop_spec (s : Str) :
    ((∀ ph ∈ stopPhrases, ∀ i, i < (upperL s).length → 0 < i →
        ph.isPrefixOf ((upperL s).drop i) = false) → cutAtStops s = s) ∧
    (cutPosFold (upperL s) < (upperL s).length →
      0 < cutPosFold (upperL s) ∧
      (∃ ph ∈ stopPhrases, jsIndexOf (upperL s) ph = some (cutPosFold (upperL s))) ∧
      (∀ ph ∈ stopPhrases, ∀ j, jsIndexOf (upperL s) ph = some j → 0 < j →
        cutPosFold (upperL s) ≤ j) ∧
      cutAtStops s = trimL (s.take (cutPosFold (upperL s)))) ∧
    (orgForms.any (fun f => containsSub (upperL s) f) = true → finalizeName s = s) ∧
    cleanCounterparty "ООО Ромашка Договор №45 от 01.01.24".data = "ООО Ромашка".data := by
  refine ⟨cutAtStops_eq_self_of_no_pos, ?_, ?_, by decide⟩
  · intro hlt
    rcases (cutFold_spec (upperL s) stopPhrases (upperL s).length).2.1 with
      heq | ⟨ph, hph, hfound, hpos⟩
    · exfalso
      unfold cutPosFold at hlt
      omega
    · refine ⟨hpos, ⟨ph, hph, hfound⟩,
        (cutFold_spec (upperL s) stopPhrases (upperL s).length).2.2, ?_⟩
      unfold cutAtStops
      dsimp only
      rw [if_pos hlt]
  · intro h
    unfold finalizeName
    dsimp only
    rw [if_pos h]

theorem cleanCounterparty_stop_spec_witness :
    cutPosFold (upperL "Ромашка Договор №45".data) <
      (upperL "Ромашка Договор №45".data).length ∧
    (0 < cutPosFold (upperL "Ромашка Договор №45".data) ∧
      cutAtStops "Ромашка Договор №45".data =
        trimL ("Ромашка Договор №45".data.take
          (cutPosFold (upperL "Ромашка Договор №45".data)))) :=
  ⟨by decide,
    ((cleanCounterparty_stop_spec "Ромашка Договор №45".data).2.1 (by decide)).1,
    ((cleanCounterparty_stop_spec "Ромашка Договор №45".data).2.1 (by decide)).2.2.2⟩

-- ========== C8: header-row search ==========

theorem rowScore_eq_foldl (row : List CellValue) :
    rowScore row = row.foldl scoreStep 0 := rfl

theorem scoreStep_eq (acc : ℚ) (cell : CellValue) :
    scoreStep acc cell = acc + (if cellKeywordHit cell then (2 : ℚ) else 0) +
      (if cellTexty cell then (1 : ℚ) / 2 else 0) := by
  unfold scoreStep cellKeywordHit cellTexty
  dsimp only
  by_cases he : scoreCellStr cell = []
  · rw [if_pos he, he]
    have hk : (headerKeywords.any fun kw => containsSub ([] : Str) kw) = false := by decide
    simp [hk]
  · rw [if_neg he]
    by_cases hkb : (headerKeywords.any fun kw => containsSub (scoreCellStr cell) kw) = true
    · by_cases htb : (jsNumberOfCell cell).isNone ∧ 1 < (scoreCellStr cell).length
      · have ht2 : ((jsNumberOfCell cell).isNone &&
            decide (1 < (scoreCellStr cell).length)) = true := by
          rw [htb.1, decide_eq_true htb.2]
          rfl
        rw [if_pos hkb, if_pos htb, if_pos hkb, if_pos ht2]
      · have ht2 : ((jsNumberOfCell cell).isNone &&
            decide (1 < (scoreCellStr cell).length)) = false := by
          rcases Bool.eq_false_or_eq_true (jsNumberOfCell cell).isNone with h1 | h1
          · have hb : ¬ 1 < (scoreCellStr cell).length := fun hl => htb ⟨h1, hl⟩
            rw [h1, decide_eq_false hb]
            rfl
          · rw [h1]
            rfl
        rw [if_pos hkb, if_neg htb, if_pos hkb, if_neg (by rw [ht2]; exact Bool.false_ne_true)]
        ring
    · by_cases htb : (jsNumberOfCell cell).isNone ∧ 1 < (scoreCellStr cell).length
      · have ht2 : ((jsNumberOfCell cell).isNone &&
            decide (1 < (scoreCellStr cell).length)) = true := by
          rw [htb.1, decide_eq_true htb.2]
          rfl
        rw [if_neg hkb, if_pos htb, if_neg hkb, if_pos ht2]
        ring
      · have ht2 : ((jsNumberOfCell cell).isNone &&
            decide (1 < (scoreCellStr cell).length)) = false := by
          rcases Bool.eq_false_or_eq_true (jsNumberOfCell cell).isNone with h1 | h1
          · have hb : ¬ 1 < (scoreCellStr cell).length := fun hl => htb ⟨h1, hl⟩
            rw [h1, decide_eq_false hb]
            rfl
          · rw [h1]
            rfl
        rw [if_neg hkb, if_neg htb, if_neg hkb, if_neg (by rw [ht2]; exact Bool.false_ne_true)]
        ring

theorem foldl_scoreStep_formula (row : List CellValue) :
    ∀ acc : ℚ, row.foldl scoreStep acc =
      acc + 2 * (row.countP cellKeywordHit : ℚ) + (1 / 2) * (row.countP cellTexty : ℚ) := by
  induction row with
  | nil =>
    intro acc
    simp
  | cons r row' ih =>
    intro acc
    rw [List.foldl_cons, ih, scoreStep_eq, List.countP_cons, List.countP_cons]
    push_cast
    cases hk : cellKeywordHit r <;> cases ht : cellTexty r <;> simp [hk, ht] <;> ring

theorem rowScore_formula (row : List CellValue) :
    rowScore row =
      2 * (row.countP cellKeywordHit : ℚ) + (1 / 2) * (row.countP cellTexty : ℚ) := by
  rw [rowScore_eq_foldl, foldl_scoreStep_formula]
  ring

theorem rowScore_nonneg (row : List CellValue) : 0 ≤ rowScore row := by
  rw [rowScore_formula]
  positivity

theorem scanRows_spec (rows : List (List CellValue)) :
    ∀ (i br : Nat) (bs : ℚ), br ≤ i →
      bs ≤ (scanRows rows i br bs).2 ∧
      (∀ k, k < rows.length → rowScore (rows.getD k []) ≤ (scanRows rows i br bs).2) ∧
      (scanRows rows i br bs = (br, bs) ∨
        ∃ k, k < rows.length ∧ (scanRows rows i br bs).1 = i + k ∧
          (scanRows rows i br bs).2 = rowScore (rows.getD k []) ∧
          bs < rowScore (rows.getD k [])) ∧
      (∀ k, k < rows.length → i + k < (scanRows rows i br bs).1 →
        rowScore (rows.getD k []) < (scanRows rows i br bs).2) := by
  induction rows with
  | nil =>
    intro i br bs _
    exact ⟨le_refl _, fun k hk => absurd hk (Nat.not_lt_zero k), Or.inl rfl,
      fun k hk => absurd hk (Nat.not_lt_zero k)⟩
  | cons r rest ih =>
    intro i br bs hbr
    have hrw : scanRows (r :: rest) i br bs =
        if bs < rowScore r then scanRows rest (i + 1) i (rowScore r)
        else scanRows rest (i + 1) br bs := rfl
    by_cases h : bs < rowScore r
    · rw [hrw, if_pos h]
      obtain ⟨ih1, ih2, ih3, ih4⟩ := ih (i + 1) i (rowScore r) (Nat.le_succ i)
      refine ⟨le_of_lt (lt_of_lt_of_le h ih1), ?_, ?_, ?_⟩
      · intro k hk
        cases k with
        | zero =>
          simp only [List.getD_cons_zero]
          exact ih1
        | succ k' =>
          simp only [List.getD_cons_succ]
          exact ih2 k' (Nat.lt_of_succ_lt_succ hk)
      · rcases ih3 with heq | ⟨k', hk', h1, h2, h3⟩
        · refine Or.inr ⟨0, Nat.succ_pos _, ?_, ?_, ?_⟩
          · rw [heq]
            rfl
          · rw [heq]
            rfl
          · simp only [List.getD_cons_zero]
            exact h
        · refine Or.inr ⟨k' + 1, Nat.succ_lt_succ hk', ?_, ?_, ?_⟩
          · rw [h1]
            omega
          · simp only [List.getD_cons_succ]
            exact h2
          · simp only [List.getD_cons_succ]
            exact lt_trans h h3
      · intro k hk hlt
        cases k with
        | zero =>
          simp only [List.getD_cons_zero]
          rcases ih3 with heq | ⟨k', hk', h1, h2, h3⟩
          · exfalso
            rw [heq] at hlt
            simp at hlt
          · rw [h2]
            exact h3
        | succ k' =>
          simp only [List.getD_cons_succ]
          exact ih4 k' (Nat.lt_of_succ_lt_succ hk) (by omega)
    · rw [hrw, if_neg h]
      obtain ⟨ih1, ih2, ih3, ih4⟩ := ih (i + 1) br bs (le_trans hbr (Nat.le_succ i))
      have hr0 : rowScore r ≤ bs := le_of_not_lt h
      refine ⟨ih1, ?_, ?_, ?_⟩
      · intro k hk
        cases k with
        | zero =>
          simp only [List.getD_cons_zero]
          exact le_trans hr0 ih1
        | succ k' =>
          simp only [List.getD_cons_succ]
          exact ih2 k' (Nat.lt_of_succ_lt_succ hk)
      · rcases ih3 with heq | ⟨k', hk', h1, h2, h3⟩
        · exact Or.inl heq
        · refine Or.inr ⟨k' + 1, Nat.succ_lt_succ hk', ?_, ?_, ?_⟩
          · rw [h1]
            omega
          · simp only [List.getD_cons_succ]
            exact h2
          · simp only [List.getD_cons_succ]
            exact h3
      · intro k hk hlt
        cases k with
        | zero =>
          simp only [List.getD_cons_zero]
          rcases ih3 with heq | ⟨k', hk', h1, h2, h3⟩
          · exfalso
            rw [heq] at hlt
            simp at hlt
            omega
          · rw [h2]
            exact lt_of_le_of_lt hr0 h3
        | succ k' =>
          simp only [List.getD_cons_succ]
          exact ih4 k' (Nat.lt_of_succ_lt_succ hk) (by omega)

theorem getD_take_lt : ∀ (l : Grid) (n k : Nat), k < n →
    (l.take n).getD k [] = l.getD k [] := by
  intro l
  induction l with
  | nil =>
    intro n k _
    simp
  | cons r t ih =>
    intro n k hkn
    cases n with
    | zero => omega
    | succ n' =>
      cases k with
      | zero => rfl
      | succ k' =>
        simp only [List.take_succ_cons, List.getD_cons_succ]
        exact ih n' k' (Nat.lt_of_succ_lt_succ hkn)

/-- C8: `findHeaderRow` header-row selection. (i) The result depends only on the
first 10 rows of the grid, and being a pure function of that content it is
deterministic. (ii) The returned index is the `bestRow` of the scoring scan.
(iii) Every row scores 2 points per cell whose normalised text contains a header
keyword plus 1/2 point per non-numeric cell of normalised length > 1. (iv) The
best score bounds every examined row's score, (v) is attained at the returned
index, and (vi) every earlier row scores strictly less (so ties resolve to the
earliest row, and index 0 is returned when all rows score equally). (vii) The
returned index is 0 or lies within the examined rows. -/
theorem findHeaderRow_spec (data : Grid) :
    (findHeaderRow data 10 = findHeaderRow (data.take 10) 10) ∧
    ((findHeaderRow data 10).headerRowIndex = (scanRows (data.take 10) 0 0 0).1) ∧
    (∀ row : List CellValue, rowScore row =
      2 * (row.countP cellKeywordHit : ℚ) + (1 / 2) * (row.countP cellTexty : ℚ)) ∧
    (∀ k, k < (data.take 10).length →
      rowScore ((data.take 10).getD k []) ≤ (scanRows (data.take 10) 0 0 0).2) ∧
    (rowScore ((data.take 10).getD ((scanRows (data.take 10) 0 0 0).1) []) =
      (scanRows (data.take 10) 0 0 0).2) ∧
    (∀ j, j < (scanRows (data.take 10) 0 0 0).1 →
      rowScore ((data.take 10).getD j []) < (scanRows (data.take 10) 0 0 0).2) ∧
    ((scanRows (data.take 10) 0 0 0).1 = 0 ∨
      (scanRows (data.take 10) 0 0 0).1 < (data.take 10).length) := by
  obtain ⟨s1, s2, s3, s4⟩ := scanRows_spec (data.take 10) 0 0 0 (le_refl 0)
  have hlen : (data.take 10).length ≤ 10 := by
    rw [List.length_take]
    exact Nat.min_le_left _ _
  have h10 : (scanRows (data.take 10) 0 0 0).1 < 10 := by
    rcases s3 with heq | ⟨k, hk, h1, -, -⟩
    · rw [heq]
      show (0 : Nat) < 10
      decide
    · rw [h1]
      omega
  refine ⟨?_, rfl, rowScore_formula, s2, ?_, ?_, ?_⟩
  · unfold findHeaderRow
    dsimp only
    rw [List.take_take, Nat.min_self, getD_take_lt data 10 _ h10]
  · rcases s3 with heq | ⟨k, hk, h1, h2, -⟩
    · rw [heq]
      show rowScore ((data.take 10).getD 0 []) = (0 : ℚ)
      rcases hr : data.take 10 with _ | ⟨r0, rest0⟩
      · rfl
      · have hle := s2 0 (by rw [hr]; exact Nat.succ_pos _)
        rw [heq, hr] at hle
        exact le_antisymm hle (rowScore_nonneg _)
    · rw [h1, h2, Nat.zero_add]
  · intro j hj
    rcases s3 with heq | ⟨k, hk, h1, -, -⟩
    · rw [heq] at hj
      exact absurd hj (by simp)
    · have hjlen : j < (data.take 10).length := by
        rw [h1] at hj
        omega
      exact s4 j hjlen (by omega)
  · rcases s3 with heq | ⟨k, hk, h1, -, -⟩
    · left
      rw [heq]
    · right
      rw [h1]
      omega

theorem findHeaderRow_spec_witness :
    0 < (sampleCashGrid.take 10).length ∧
    rowScore ((sampleCashGrid.take 10).getD 0 []) ≤
      (scanRows (sampleCashGrid.take 10) 0 0 0).2 :=
  ⟨by decide, (findHeaderRow_spec sampleCashGrid).2.2.2.1 0 (by decide)⟩
